import Mathlib

/-!
Verification of the changeset aggregation and dependency-cascade versioning
engine of the `lazy-release/changesets` repository.

JavaScript strings are modelled as lists of characters (`JStr`).  The
functions below are shallow embeddings of the TypeScript source in
`src/version.ts` and `src/snapshot.ts`; each definition carries a note
pointing at the function it embeds.  JavaScript built-ins that the source
relies on (`String.prototype.split`, `Number`, regular-expression matching,
`Array.prototype.sort`, the `Map`/`Set` classes) are modelled explicitly,
restricted to the fragment of their behaviour the source exercises.
-/

/-- JavaScript string, modelled as a list of characters. -/
abbrev JStr := List Char

/-- Conversion from Lean string literals. -/
def js (s : String) : JStr := s.data

/-- Model of `String.prototype.split` with a single-character separator,
e.g. `version.split(".")` in `bumpVersion` (src/version.ts line 100). -/
def splitOnChar (sep : Char) : JStr → List JStr
  | [] => [[]]
  | c :: cs =>
    if c = sep then [] :: splitOnChar sep cs
    else
      match splitOnChar sep cs with
      | [] => [[c]]
      | s :: rest => (c :: s) :: rest

/-- Decimal value of a digit list, most significant digit first. -/
def digitsToNat (s : JStr) : Nat :=
  s.foldl (fun a c => 10 * a + (c.toNat - 48)) 0

/-- Fuel-based digit renderer; `natCharsAux fuel n` is correct when `n < fuel`. -/
def natCharsAux : Nat → Nat → JStr
  | 0, _ => []
  | fuel + 1, n =>
    if n < 10 then [Char.ofNat (48 + n)]
    else natCharsAux fuel (n / 10) ++ [Char.ofNat (48 + n % 10)]

/-- Decimal rendering of a natural number (no leading zeros, `0 ↦ "0"`),
the way JavaScript template interpolation prints a non-negative integer. -/
def natChars (n : Nat) : JStr := natCharsAux (n + 1) n

/-- Rendering of an integer, as JavaScript template interpolation prints it. -/
def intChars (i : Int) : JStr :=
  if i < 0 then '-' :: natChars i.natAbs else natChars i.toNat

/-- Model of the fragment of the JavaScript `Number` coercion that version
segments can reach: the empty string coerces to `0`, an optional single sign
followed by one or more decimal digits coerces to the corresponding integer,
and everything else is `NaN` (`none`).  (Exotic numeric forms such as
hexadecimal or exponent notation, and surrounding whitespace, are outside
the modelled fragment.) -/
def jsNumber (s : JStr) : Option Int :=
  match s with
  | [] => some 0
  | c :: rest =>
    if c = '-' then
      if rest ≠ [] ∧ rest.all Char.isDigit then some (-(digitsToNat rest : Int)) else none
    else if c = '+' then
      if rest ≠ [] ∧ rest.all Char.isDigit then some ((digitsToNat rest : Int)) else none
    else if (c :: rest).all Char.isDigit then some ((digitsToNat (c :: rest) : Int))
    else none

/-- The release-type union `"major" | "minor" | "patch"` of src/version.ts. -/
inductive RT where
  | major
  | minor
  | patch
deriving DecidableEq, Repr

/-- Embedding of `bumpVersion` (src/version.ts lines 95-117).  The version is
split on dots and every segment is coerced with `Number`; unless this yields
exactly three numbers the function throws (`Except.error`).  The match
pattern `[some a, some b, some c]` is exactly the source's
`parts.length !== 3 || parts.some(isNaN)` guard. -/
def bumpVersion (version : JStr) (releaseType : RT) (isBreaking : Bool) :
    Except JStr JStr :=
  match (splitOnChar '.' version).map jsNumber with
  | [some a, some b, some c] =>
    .ok (match releaseType with
      | .major =>
        if isBreaking ∧ a = 0 then intChars a ++ '.' :: intChars (b + 1) ++ ['.', '0']
        else intChars (a + 1) ++ ['.', '0', '.', '0']
      | .minor => intChars a ++ '.' :: intChars (b + 1) ++ ['.', '0']
      | .patch => intChars a ++ '.' :: intChars b ++ '.' :: intChars (c + 1))
  | _ => .error (js "Invalid version format: " ++ version)

/-- Decidable equality test for `Except JStr JStr` results. -/
def exceptEq (a b : Except JStr JStr) : Bool :=
  match a, b with
  | .ok x, .ok y => x = y
  | .error x, .error y => x = y
  | _, _ => false

/-- Spec-side predicate, from the words of the claim: the version string
consists of exactly three dot-separated non-negative integer components. -/
def threePartNumeric (v : JStr) : Bool :=
  (splitOnChar '.' v).length == 3 &&
    (splitOnChar '.' v).all (fun s => !s.isEmpty && s.all Char.isDigit)

/-- Spec-side predicate for the amended C7: a segment the JavaScript `Number`
coercion accepts — empty, or an optional single sign followed by at least one
decimal digit. -/
def jsNumericSegment (s : JStr) : Bool :=
  match s with
  | [] => true
  | c :: rest =>
    if c = '-' ∨ c = '+' then !rest.isEmpty && rest.all Char.isDigit
    else (c :: rest).all Char.isDigit

/-- The range-operator character class `[~^>=<]` of the regular expression
in `updateDependencyRange` (src/version.ts lines 177 and 187). -/
def isOpChar (c : Char) : Bool := c = '~' || c = '^' || c = '>' || c = '=' || c = '<'

/-- JavaScript regular-expression line terminators (not matched by `.`,
and `$` without the `m` flag only matches at the very end of the input). -/
def jsLineTerm (c : Char) : Bool := c = '\n' || c = '\r' || c = '\u2028' || c = '\u2029'

/-- Model of `s.match` with the pattern `^([~^>=<]*)(.*)$`: the greedy operator class takes
the longest operator prefix and `(.*)$` takes the rest, but since `.` cannot
cross a line terminator and `$` is anchored at the end of the input, the
match fails altogether when `s` contains a line terminator. -/
def opVerMatch (s : JStr) : Option (JStr × JStr) :=
  if s.any jsLineTerm then none else some (s.takeWhile isOpChar, s.dropWhile isOpChar)

/-- Embedding of `updateDependencyRange` (src/version.ts lines 169-194).
`currentRange.replace("workspace:", "")` under the `startsWith` guard removes
the leading `workspace:`; a failed regular-expression match falls through to
the standard-range handling, and a failed match there reaches the final
`return newVersion`. -/
def updateDependencyRange (currentRange newVersion : JStr) : JStr :=
  let fallback :=
    if currentRange = js "*" then currentRange
    else
      match opVerMatch currentRange with
      | some (ops, _) => ops ++ newVersion
      | none => newVersion
  if (js "workspace:").isPrefixOf currentRange then
    let operator := currentRange.drop (js "workspace:").length
    if operator = js "*" then currentRange
    else
      match opVerMatch operator with
      | some (ops, _) => js "workspace:" ++ ops ++ newVersion
      | none => fallback
  else fallback

/-- First-occurrence search: `splitOnFirst pat s = some (a, b)` when
`s = a ++ pat ++ b` with `a` shortest; `none` when `pat` does not occur.
Models the lazy quantifier in the frontmatter regular expression. -/
def splitOnFirst (pat : JStr) : JStr → Option (JStr × JStr)
  | [] => if pat = [] then some ([], []) else none
  | c :: cs =>
    if pat.isPrefixOf (c :: cs) then some ([], (c :: cs).drop pat.length)
    else (splitOnFirst pat cs).map (fun pr => (c :: pr.1, pr.2))

/-- JavaScript whitespace (the `\s` class and `String.prototype.trim`),
restricted to the ASCII whitespace characters. -/
def isJsWS (c : Char) : Bool :=
  c = ' ' || c = '\t' || c = '\n' || c = '\r' || c = '\x0b' || c = '\x0c'

/-- The JavaScript word-character class `\w`, i.e. `[A-Za-z0-9_]`. -/
def isWordChar (c : Char) : Bool := c.isAlphanum || c = '_'

/-- Model of `String.prototype.trim`. -/
def jsTrim (s : JStr) : JStr :=
  ((s.dropWhile isJsWS).reverse.dropWhile isJsWS).reverse

/-- Model of `content.match` with the pattern `^---\n([\s\S]*?)\n---` (src/version.ts line
49): the content must start with `---\n`, and the lazy group ends at the
first following `\n---`.  Returns the frontmatter and the text after the
closing delimiter. -/
def extractFrontmatter (content : JStr) : Option (JStr × JStr) :=
  if (js "---\n").isPrefixOf content then
    splitOnFirst (js "\n---") (content.drop (js "---\n").length)
  else none

/-- Model of the message extraction
`content.match` with the pattern `^---\n[\s\S]*?\n---\n([\s\S]*)$` followed by
`?.[1]?.trim() || ""` (src/version.ts lines 57-58): everything after the
first `\n---\n`, trimmed; the empty string when the pattern does not match. -/
def extractMessage (content : JStr) : JStr :=
  if (js "---\n").isPrefixOf content then
    match splitOnFirst (js "\n---\n") (content.drop (js "---\n").length) with
    | some pr => jsTrim pr.2
    | none => []
  else []

/-- Common core of the declaration-line regular expressions
`/^"([^"]+)":\s*(\w+)/`: a double-quoted non-empty package name (the greedy
`[^"]+` cannot contain a quote, so it ends at the first quote, which must be
followed by `:`), optional whitespace, and a non-empty greedy run of word
characters.  Returns the name, the word, and the unconsumed tail. -/
def parseDeclCore (line : JStr) : Option (JStr × JStr × JStr) :=
  match line with
  | '"' :: rest =>
    match splitOnFirst ['"'] rest with
    | some (name, afterQuote) =>
      if name = [] then none
      else
        match afterQuote with
        | ':' :: t =>
          let t2 := t.dropWhile isJsWS
          let word := t2.takeWhile isWordChar
          if word = [] then none else some (name, word, t2.drop word.length)
        | _ => none
    | none => none
  | _ => none

/-- Model of the declaration-line match `/^"([^"]+)":\s*(\w+)(@major|!)?/`
in `parseChangesetFile` (src/version.ts line 61); the third component is the
matched suffix group (`@major`, `!`, or empty). -/
def parseDeclLine (line : JStr) : Option (JStr × JStr × JStr) :=
  (parseDeclCore line).map (fun pr =>
    (pr.1, pr.2.1,
      if (js "@major").isPrefixOf pr.2.2 then js "@major"
      else if (js "!").isPrefixOf pr.2.2 then js "!"
      else []))

/-- Model of the changelog declaration-line match
`/^"([^"]+)":\s*(\w+)(!?)/` in `generateChangelog` (src/version.ts line
334); the Bool is whether the breaking `!` suffix is present. -/
def parseChangelogLine (line : JStr) : Option (JStr × JStr × Bool) :=
  (parseDeclCore line).map (fun pr => (pr.1, pr.2.1, (js "!").isPrefixOf pr.2.2))

/-- The `ChangesetType` configuration entries (src/config.ts); `releaseType`
is optional there. -/
structure ChangesetType where
  type : JStr
  displayName : JStr
  emoji : JStr
  releaseType : Option RT := none
  promptBreakingChange : Bool := false
deriving DecidableEq, Repr

/-- The `ChangesetReleaseType` record (src/version.ts lines 9-15). -/
structure ChangesetReleaseType where
  type : RT
  packageName : JStr
  message : JStr
  changesetType : JStr
  isBreaking : Bool
deriving DecidableEq, Repr

/-- Release-type resolution for one declaration line (src/version.ts lines
69-78): a breaking or explicit-major suffix forces `major`, otherwise the
configured release type of the declared type applies, defaulting to
`patch`. -/
def resolveReleaseType (types : List ChangesetType) (changesetType : JStr)
    (isBreaking isExplicitMajor : Bool) : RT :=
  if isBreaking || isExplicitMajor then .major
  else
    match types.find? (fun t => t.type = changesetType) with
    | some tc =>
      match tc.releaseType with
      | some rt => rt
      | none => .patch
    | none => .patch

/-- Embedding of `parseChangesetFile` (src/version.ts lines 44-85), with the
configuration's type table passed as a parameter (the source reads it from
the global configuration) and the file's raw content in place of the file
path. -/
def parseChangesetFile (types : List ChangesetType) (content : JStr) :
    List ChangesetReleaseType :=
  match extractFrontmatter content with
  | none => []
  | some pr =>
    let message := extractMessage content
    (splitOnChar '\n' pr.1).filterMap (fun line =>
      (parseDeclLine line).map (fun d =>
        { type := resolveReleaseType types d.2.1 (d.2.2 = js "!") (d.2.2 = js "@major"),
          packageName := d.1,
          message := message,
          changesetType := d.2.1,
          isBreaking := d.2.2 = js "!" }))

/-- `lines.join("\n")`: the frontmatter text whose `split("\n")` is `lines`. -/
def joinNL : List JStr → JStr
  | [] => []
  | [l] => l
  | l :: rest => l ++ '\n' :: joinNL rest

/-- Association list modelling a JavaScript `Map` (`get`); first match. -/
def alGet {α : Type _} : List (JStr × α) → JStr → Option α
  | [], _ => none
  | e :: rest, k => if e.1 = k then some e.2 else alGet rest k

/-- `Map.set`: replace in place, preserving position; append when absent. -/
def alSet {α : Type _} : List (JStr × α) → JStr → α → List (JStr × α)
  | [], k, v => [(k, v)]
  | e :: rest, k, v => if e.1 = k then (k, v) :: rest else e :: alSet rest k v

/-- `Map.has`. -/
def alHas {α : Type _} (m : List (JStr × α)) (k : JStr) : Bool := (alGet m k).isSome

/-- The `DependencyUpdate` record (src/version.ts lines 29-33); the source's
`from`/`to` fields are named `fromRange`/`toRange` here because `from` is a
reserved word in Lean. -/
structure DependencyUpdate where
  name : JStr
  fromRange : JStr
  toRange : JStr
deriving DecidableEq, Repr

/-- The inner loop of `generateChangelog` over one document's frontmatter
lines (src/version.ts lines 333-347): the first line matching the changelog
pattern with the target package name wins (the loop `break`s), yielding the
declared type and the breaking flag. -/
def firstMatchingLine (packageName : JStr) : List JStr → Option (JStr × Bool)
  | [] => none
  | l :: ls =>
    match parseChangelogLine l with
    | some d =>
      if d.1 = packageName then some (d.2.1, d.2.2)
      else firstMatchingLine packageName ls
    | none => firstMatchingLine packageName ls

/-- The bucket-collection loop of `generateChangelog` (src/version.ts lines
320-348): iterates the changeset documents, skipping those without
frontmatter, and routes each document's message to the breaking bucket or to
its declared type's group according to the first matching line. -/
def collectBucketsAux (packageName : JStr) :
    List JStr → List (JStr × List JStr) → List JStr →
    List (JStr × List JStr) × List JStr
  | [], typeGroups, breaking => (typeGroups, breaking)
  | content :: rest, typeGroups, breaking =>
    match extractFrontmatter content with
    | none => collectBucketsAux packageName rest typeGroups breaking
    | some pr =>
      let message := extractMessage content
      match firstMatchingLine packageName (splitOnChar '\n' pr.1) with
      | none => collectBucketsAux packageName rest typeGroups breaking
      | some d =>
        if d.2 then collectBucketsAux packageName rest typeGroups (breaking ++ [message])
        else
          collectBucketsAux packageName rest
            (alSet typeGroups d.1 ((alGet typeGroups d.1).getD [] ++ [message])) breaking

/-- The sort key of the comparator in `generateChangelog` (src/version.ts
lines 362-368): the type's index in the configuration, or the sentinel 999
when the type is not configured. -/
def sentinelIdx (types : List ChangesetType) (ty : JStr) : Nat :=
  match types.findIdx? (fun t => t.type = ty) with
  | some i => i
  | none => 999

/-- Stable insertion sort by a numeric key.  Models
`Array.prototype.sort((a, b) => keyA - keyB)`: ECMAScript requires the sort
to be stable, and sortedness, stability and the permutation property
determine the output uniquely, so insertion sort is a faithful model. -/
def orderedInsertK (key : JStr → Nat) (x : JStr) : List JStr → List JStr
  | [] => [x]
  | y :: ys => if key x ≤ key y then x :: y :: ys else y :: orderedInsertK key x ys

/-- See `orderedInsertK`. -/
def insertionSortK (key : JStr → Nat) : List JStr → List JStr
  | [] => []
  | x :: xs => orderedInsertK key x (insertionSortK key xs)

/-- Message list rendering (`- msg` lines). -/
def renderMsgs : List JStr → JStr
  | [] => []
  | m :: ms => js "- " ++ m ++ js "\n" ++ renderMsgs ms

/-- Dependency-update section body (src/version.ts lines 314-316). -/
def renderDeps : List DependencyUpdate → JStr
  | [] => []
  | d :: ds =>
    js "- Updated " ++ d.name ++ js " from " ++ d.fromRange ++ js " to " ++
      d.toRange ++ js "\n" ++ renderDeps ds

/-- `typeConfig?.emoji || "•"` (src/version.ts line 375). -/
def emojiOf (types : List ChangesetType) (ty : JStr) : JStr :=
  match types.find? (fun t => t.type = ty) with
  | some tc => if tc.emoji = [] then js "•" else tc.emoji
  | none => js "•"

/-- The per-type rendering loop of `generateChangelog` (src/version.ts lines
370-382): groups with no messages are skipped, and each block's heading is
`### <emoji> <type>` — the raw type string, not the configured display
name. -/
def renderTypeBlocks (types : List ChangesetType) (typeGroups : List (JStr × List JStr)) :
    List JStr → JStr
  | [] => []
  | ty :: rest =>
    let messages := (alGet typeGroups ty).getD []
    if messages = [] then renderTypeBlocks types typeGroups rest
    else
      js "### " ++ emojiOf types ty ++ js " " ++ ty ++ js "\n" ++ renderMsgs messages ++
        js "\n" ++ renderTypeBlocks types typeGroups rest

/-- Embedding of `generateChangelog` (src/version.ts lines 301-385), with
the configuration's type table and the current date passed as parameters
(the source reads them from the global configuration and the system
clock). -/
def generateChangelog (types : List ChangesetType) (packageName version : JStr)
    (changesetContents : List JStr) (dependencyUpdates : Option (List DependencyUpdate))
    (date : JStr) : JStr :=
  let header := js "## " ++ version ++ js " (" ++ date ++ js ")\n\n"
  let depsStr :=
    match dependencyUpdates with
    | some l =>
      if l.length > 0 then js "### 📦 Dependencies\n" ++ renderDeps l ++ js "\n" else []
    | none => []
  let buckets := collectBucketsAux packageName changesetContents [] []
  let breakingStr :=
    if buckets.2.length > 0 then
      js "⚠️ Breaking Changes\n" ++ renderMsgs buckets.2 ++ js "\n"
    else []
  if buckets.1.length = 0 ∧ buckets.2.length = 0 then
    header ++ depsStr ++ breakingStr ++ js "No changes recorded.\n"
  else
    header ++ depsStr ++ breakingStr ++
      renderTypeBlocks types buckets.1
        (insertionSortK (sentinelIdx types) (buckets.1.map (fun e => e.1)))

/-- The default type table `defaultChangesetTypes` of src/config.ts. -/
def defaultChangesetTypes : List ChangesetType :=
  [⟨js "feat", js "New Features", js "🚀", some .minor, true⟩,
   ⟨js "fix", js "Bug Fixes", js "🐛", none, true⟩,
   ⟨js "perf", js "Performance Improvements", js "⚡️", none, true⟩,
   ⟨js "chore", js "Chores", js "🏠", none, false⟩,
   ⟨js "docs", js "Documentation", js "📚", none, false⟩,
   ⟨js "style", js "Styles", js "🎨", none, false⟩,
   ⟨js "refactor", js "Refactoring", js "♻️", none, true⟩,
   ⟨js "test", js "Tests", js "✅", none, false⟩,
   ⟨js "build", js "Build", js "📦", none, true⟩,
   ⟨js "ci", js "Automation", js "🤖", none, false⟩,
   ⟨js "revert", js "Reverts", js "⏪", none, true⟩]

/-- Substring occurrence test. -/
def occursIn (pat s : JStr) : Bool := (splitOnFirst pat s).isSome

/-- The declaration `generateChangelog` buckets a document under: its first
frontmatter line matching the changelog pattern with the target package. -/
def docFirstMatch (pkg content : JStr) : Option (JStr × Bool) :=
  match extractFrontmatter content with
  | none => none
  | some pr => firstMatchingLine pkg (splitOnChar '\n' pr.1)

/-- Spec-side characterization for C8: the message a document contributes to
the Breaking Changes bucket (its first matching declaration carries `!`). -/
def breakingMsgOf (pkg content : JStr) : Option JStr :=
  match docFirstMatch pkg content with
  | some d => if d.2 then some (extractMessage content) else none
  | none => none

/-- Spec-side characterization for C8: the message a document contributes to
the group of type `ty` (its first matching declaration has type `ty` and no
`!` suffix — an `@major` suffix does not set the breaking flag). -/
def typeMsgOf (pkg ty content : JStr) : Option JStr :=
  match docFirstMatch pkg content with
  | some d => if d.1 = ty ∧ d.2 = false then some (extractMessage content) else none
  | none => none

/-- The manifest fields the core inspects (src/version.ts `packageJson`
usages); `private` is `isPrivate` because `private` is a Lean keyword.
Unrelated manifest fields are not modelled. -/
structure Manifest where
  name : Option JStr
  version : JStr
  dependencies : List (JStr × JStr)
  devDependencies : List (JStr × JStr)
  peerDependencies : List (JStr × JStr)
  isPrivate : Bool
deriving DecidableEq, Repr

/-- The `PackageInfo` record (src/version.ts lines 17-22). -/
structure PackageInfo where
  name : JStr
  version : JStr
  path : JStr
  packageJson : Manifest
deriving DecidableEq, Repr

/-- The `DependencyGraph` record (src/version.ts lines 24-27); the two
JavaScript `Map`s are insertion-ordered association lists, and the dependent
`Set`s are lists. -/
structure DependencyGraph where
  packages : List (JStr × PackageInfo)
  dependents : List (JStr × List JStr)
deriving DecidableEq, Repr

/-- The element type of `initialUpdates` in `cascadeVersionUpdates`
(src/version.ts line 235): `releaseType` is a plain string there. -/
structure InitUpdate where
  version : JStr
  releaseType : JStr
deriving DecidableEq, Repr

/-- The `reason` union of `UpdateResult`. -/
inductive Reason where
  | changeset
  | dependency
deriving DecidableEq, Repr

/-- The `UpdateResult` record (src/version.ts lines 35-42) as the cascade
produces it.  `releaseType` is modelled as a string because the cascade
writes `update.releaseType as "major" | "minor" | "patch"` — an unchecked
cast from the string-typed initial updates.  The optional
`dependencyUpdates` field is attached later by `version()`, never by the
cascade, and is not modelled here. -/
structure UpdateResult where
  packageName : JStr
  oldVersion : JStr
  newVersion : JStr
  releaseType : JStr
  reason : Reason
deriving DecidableEq, Repr

/-- Embedding of `shouldUpdateDependency` (src/version.ts lines 158-167),
on strings: the cascade calls it with `current.releaseType as any`, so the
release type is an arbitrary string at run time. -/
def shouldUpdateDependency (updatePolicy releaseType : JStr) : Bool :=
  if updatePolicy = js "none" then false
  else if updatePolicy = js "patch" then true
  else if updatePolicy = js "minor" then
    (releaseType = js "minor") || (releaseType = js "major")
  else if updatePolicy = js "major" then (releaseType = js "major")
  else false

/-- The mutable state of `cascadeVersionUpdates` (src/version.ts lines
239-241): the result map, the processed set and the work queue. -/
structure CState where
  allUpdates : List (JStr × UpdateResult)
  processed : List JStr
  queue : List (JStr × JStr)
deriving DecidableEq, Repr

/-- The seeding loop of `cascadeVersionUpdates` (src/version.ts lines
244-257): packages with changesets that exist in the graph are entered into
the result map with reason `changeset` and pushed onto the queue; unknown
package names are skipped silently. -/
def seedInitial (g : DependencyGraph) : List (JStr × InitUpdate) → CState → CState
  | [], st => st
  | (pkgName, update) :: rest, st =>
    match alGet g.packages pkgName with
    | none => seedInitial g rest st
    | some pkgInfo =>
      seedInitial g rest
        { st with
          allUpdates := alSet st.allUpdates pkgName
            ⟨pkgName, pkgInfo.version, update.version, update.releaseType, .changeset⟩,
          queue := st.queue ++ [(pkgName, update.releaseType)] }

/-- One iteration of the dependent loop of `cascadeVersionUpdates`
(src/version.ts lines 269-295), with the source's guard order: skip when the
dependent has a changeset, when the policy rejects the current bump kind,
when the dependent is already in the result map, or when it is not a graph
package; otherwise give it a patch bump (which can throw on a malformed
version) and enqueue it. -/
def processDependent (initialUpdates : List (JStr × InitUpdate)) (g : DependencyGraph)
    (updatePolicy currentRT : JStr) (st : CState) (depName : JStr) :
    Except JStr CState :=
  if alHas initialUpdates depName then .ok st
  else if shouldUpdateDependency updatePolicy currentRT = false then .ok st
  else if alHas st.allUpdates depName then .ok st
  else
    match alGet g.packages depName with
    | none => .ok st
    | some depInfo =>
      match bumpVersion depInfo.version .patch false with
      | .error e => .error e
      | .ok newVersion =>
        .ok { st with
          allUpdates := alSet st.allUpdates depName
            ⟨depName, depInfo.version, newVersion, js "patch", .dependency⟩,
          queue := st.queue ++ [(depName, js "patch")] }

/-- The `for (const depName of dependentNames)` loop (src/version.ts line
269), short-circuiting on a thrown error. -/
def processDependents (iu : List (JStr × InitUpdate)) (g : DependencyGraph)
    (pol currentRT : JStr) : List JStr → CState → Except JStr CState
  | [], st => .ok st
  | d :: ds, st =>
    match processDependent iu g pol currentRT st d with
    | .error e => .error e
    | .ok st' => processDependents iu g pol currentRT ds st'

/-- The `while (queue.length > 0)` loop of `cascadeVersionUpdates`
(src/version.ts lines 260-296).  The loop body is fuel-indexed; `none`
signals fuel exhaustion, which `cascadeLoop_total` below proves unreachable
for the fuel chosen in `cascadeVersionUpdates`, establishing termination. -/
def cascadeLoop (iu : List (JStr × InitUpdate)) (g : DependencyGraph) (pol : JStr) :
    Nat → CState → Option (Except JStr CState)
  | fuel, st =>
    match st.queue with
    | [] => some (.ok st)
    | current :: rest =>
      match fuel with
      | 0 => none
      | fuel' + 1 =>
        if current.1 ∈ st.processed then
          cascadeLoop iu g pol fuel' { st with queue := rest }
        else
          let st1 : CState :=
            { st with queue := rest, processed := st.processed ++ [current.1] }
          match alGet g.dependents current.1 with
          | none => cascadeLoop iu g pol fuel' st1
          | some deps =>
            match processDependents iu g pol current.2 deps st1 with
            | .error e => some (.error e)
            | .ok st2 => cascadeLoop iu g pol fuel' st2

/-- Embedding of `cascadeVersionUpdates` (src/version.ts lines 234-299):
seed from the changeset-driven updates, then drain the queue.  The fuel —
initial queue length plus the number of graph packages — dominates the loop
measure, so the `Option` layer never yields `none` (`cascade_terminates`). -/
def cascadeVersionUpdates (initialUpdates : List (JStr × InitUpdate))
    (g : DependencyGraph) (updatePolicy : JStr) :
    Option (Except JStr (List (JStr × UpdateResult))) :=
  let st0 := seedInitial g initialUpdates ⟨[], [], []⟩
  (cascadeLoop initialUpdates g updatePolicy
      (st0.queue.length + (g.packages.map (fun e => e.1)).length) st0).map
    (fun r => r.map (fun st => st.allUpdates))

/-- Graph packages not yet in the result map. -/
def missingCount (g : DependencyGraph) (m : List (JStr × UpdateResult)) : Nat :=
  ((g.packages.map (fun e => e.1)).filter (fun n => !(alHas m n))).length

/-- The loop measure: queued work plus graph packages not yet in the result
map.  Every loop iteration strictly decreases it. -/
def cascadeMeasure (g : DependencyGraph) (st : CState) : Nat :=
  st.queue.length + missingCount g st.allUpdates

/-- Loop invariant of the cascade: every queued entry is bound in the
result map with exactly the queued release type. -/
def QueueInv (st : CState) : Prop :=
  ∀ qe ∈ st.queue, ∃ e, alGet st.allUpdates qe.1 = some e ∧ e.releaseType = qe.2

/-- Loop invariant of the cascade: every dependency-reason entry is a patch
bump of its old version, and some package already in the result map both
has it as a dependent and passed the update-policy gate. -/
def ProvInv (g : DependencyGraph) (pol : JStr) (st : CState) : Prop :=
  ∀ el ∈ st.allUpdates, el.2.reason = .dependency →
    el.2.releaseType = js "patch" ∧
    bumpVersion el.2.oldVersion .patch false = .ok el.2.newVersion ∧
    ∃ pn pe deps, alGet st.allUpdates pn = some pe ∧
      alGet g.dependents pn = some deps ∧
      el.1 ∈ deps ∧ shouldUpdateDependency pol pe.releaseType = true

/-- A one-line package record for the concrete example graphs. -/
def mkPkg (n : String) : JStr × PackageInfo :=
  (js n, ⟨js n, js "1.0.0", js n, ⟨some (js n), js "1.0.0", [], [], [], false⟩⟩)

/-- The diamond graph of the C2 example: B and C depend on A, and D depends
on both B and C. -/
def diamondGraph : DependencyGraph :=
  ⟨[mkPkg "A", mkPkg "B", mkPkg "C", mkPkg "D"],
   [(js "A", [js "B", js "C"]), (js "B", [js "D"]), (js "C", [js "D"])]⟩

/-- The cyclic graph A → B → C → A of the C2 edge case. -/
def cycleGraph : DependencyGraph :=
  ⟨[mkPkg "A", mkPkg "B", mkPkg "C"],
   [(js "A", [js "B"]), (js "B", [js "C"]), (js "C", [js "A"])]⟩

/-- A changeset only for A with a patch bump. -/
def seedAOnly : List (JStr × InitUpdate) := [(js "A", ⟨js "1.0.1", js "patch"⟩)]

/-- The cascade's result on the diamond graph seeded only at A. -/
def diamondResult : List (JStr × UpdateResult) :=
  [(js "A", ⟨js "A", js "1.0.0", js "1.0.1", js "patch", .changeset⟩),
   (js "B", ⟨js "B", js "1.0.0", js "1.0.1", js "patch", .dependency⟩),
   (js "C", ⟨js "C", js "1.0.0", js "1.0.1", js "patch", .dependency⟩),
   (js "D", ⟨js "D", js "1.0.0", js "1.0.1", js "patch", .dependency⟩)]

/-- The cascade's result on the cyclic graph seeded only at A. -/
def cycleResult : List (JStr × UpdateResult) :=
  [(js "A", ⟨js "A", js "1.0.0", js "1.0.1", js "patch", .changeset⟩),
   (js "B", ⟨js "B", js "1.0.0", js "1.0.1", js "patch", .dependency⟩),
   (js "C", ⟨js "C", js "1.0.0", js "1.0.1", js "patch", .dependency⟩)]

/-- The filesystem, for the snapshot flow (src/snapshot.ts): a map from
file path to file content. -/
abbrev FS := List (JStr × JStr)

/-- `writeFileSync`. -/
def fsWrite (fs : FS) (path content : JStr) : FS := alSet fs path content

/-- The `PackageBackup` record (src/snapshot.ts lines 24-27). -/
structure PackageBackup where
  path : JStr
  content : JStr
deriving DecidableEq, Repr

/-- The slice of a graph package the snapshot flow uses: manifest path,
current version, and the manifest's `private` flag (`private` is a Lean
keyword, hence `isPrivate`). -/
structure SnapPkgInfo where
  path : JStr
  version : JStr
  isPrivate : Bool
deriving DecidableEq, Repr

/-- The dependency graph as the snapshot flow reads it. -/
structure SnapGraph where
  packages : List (JStr × SnapPkgInfo)
deriving DecidableEq, Repr

/-- The accumulator loop of `backupPackageJsonFiles` (src/snapshot.ts lines
62-80): skip names missing from the graph, read each manifest
(`readFileSync` throws — `.error` — when the file is absent), and record
`pkgName ↦ { path, content }`. -/
def backupLoop (g : SnapGraph) (fs : FS) :
    List JStr → List (JStr × PackageBackup) → Except JStr (List (JStr × PackageBackup))
  | [], acc => .ok acc
  | p :: ps, acc =>
    match alGet g.packages p with
    | none => backupLoop g fs ps acc
    | some info =>
      match alGet fs info.path with
      | none => .error info.path
      | some content => backupLoop g fs ps (alSet acc p ⟨info.path, content⟩)

/-- `backupPackageJsonFiles` (src/snapshot.ts lines 62-80). -/
def backupPackageJsonFiles (pkgs : List JStr) (g : SnapGraph) (fs : FS) :
    Except JStr (List (JStr × PackageBackup)) :=
  backupLoop g fs pkgs []

/-- `updatePackagesToSnapshot` (src/snapshot.ts lines 82-124), restricted
to its filesystem effect: for each graph package it overwrites the manifest
with the re-serialised mutated JSON — whose exact text, `render p`, is
irrelevant to restoration — and a `writeFileSync` failure (`mutThrow p`)
propagates out at once, leaving the earlier writes in place.  The returned
`Option` is the thrown error. -/
def updatePackagesToSnapshot (render : JStr → JStr) (mutThrow : JStr → Bool)
    (g : SnapGraph) : List JStr → FS → FS × Option JStr
  | [], fs => (fs, none)
  | p :: ps, fs =>
    match alGet g.packages p with
    | none => updatePackagesToSnapshot render mutThrow g ps fs
    | some info =>
      if mutThrow p then (fs, some (js "EACCES"))
      else updatePackagesToSnapshot render mutThrow g ps
        (fsWrite fs info.path (render p))

/-- `restorePackageJsonFiles` (src/snapshot.ts lines 126-137): write every
backup's content back to its path; a failing write (`restoreFail`) is
caught, reported and skipped, and the loop continues with the remaining
files. -/
def restorePackageJsonFiles (restoreFail : JStr → Bool) :
    List (JStr × PackageBackup) → FS → FS
  | [], fs => fs
  | (_, b) :: rest, fs =>
    if restoreFail b.path then restorePackageJsonFiles restoreFail rest fs
    else restorePackageJsonFiles restoreFail rest (fsWrite fs b.path b.content)

/-- The publish loop of `snapshot` (src/snapshot.ts lines 256-287):
private packages are skipped, and each `publishToNpm` call is wrapped in
its own try/catch, so a failed publish (`pubOk p = false`) only bumps the
failure counter and never escapes the loop. -/
def publishLoop (pubOk : JStr → Bool) (g : SnapGraph) :
    List JStr → Nat × Nat → Nat × Nat
  | [], res => res
  | p :: ps, res =>
    match alGet g.packages p with
    | none => publishLoop pubOk g ps res
    | some info =>
      if info.isPrivate then publishLoop pubOk g ps res
      else if pubOk p then publishLoop pubOk g ps (res.1 + 1, res.2)
      else publishLoop pubOk g ps (res.1, res.2 + 1)

/-- The manifest-mutation phase of `snapshot` (src/snapshot.ts lines
230-322): back up the manifests, then inside `try` mutate them and run the
publish loop, restoring every backup before returning; on any exception
inside the `try` (here: a mutation write failure) restore in the `catch`
and re-raise.  The result pairs the final filesystem with either the tally
`(success, failed)` or the re-raised error. -/
def snapshotRun (pkgs : List JStr) (g : SnapGraph) (render : JStr → JStr)
    (mutThrow restoreFail pubOk : JStr → Bool) (fs : FS) :
    Except JStr (FS × Except JStr (Nat × Nat)) :=
  match backupPackageJsonFiles pkgs g fs with
  | .error e => .error e
  | .ok backups =>
    match updatePackagesToSnapshot render mutThrow g pkgs fs with
    | (fs1, some e) =>
      .ok (restorePackageJsonFiles restoreFail backups fs1, .error e)
    | (fs1, none) =>
      .ok (restorePackageJsonFiles restoreFail backups fs1,
        .ok (publishLoop pubOk g pkgs (0, 0)))

/-! ## Theorems -/

theorem exceptEq_iff {a b : Except JStr JStr} : exceptEq a b = true ↔ a = b := by
  cases a <;> cases b <;> simp [exceptEq]

-- sanity checks mirroring src/version.test.ts
example : exceptEq (bumpVersion (js "1.0.0") .major false) (.ok (js "2.0.0")) := by decide
example : exceptEq (bumpVersion (js "0.5.10") .major true) (.ok (js "0.6.0")) := by decide
example : exceptEq (bumpVersion (js "999.999.999") .major false) (.ok (js "1000.0.0")) := by
  decide
example : exceptEq (bumpVersion (js "1.5.10") .patch false) (.ok (js "1.5.11")) := by decide
example : (bumpVersion (js "1.0") .major false).isOk = false := by decide
example : (bumpVersion (js "a.b.c") .major false).isOk = false := by decide
example : exceptEq (bumpVersion (js "1..2") .patch false) (.ok (js "1.0.3")) := by decide

theorem digit_isDigit {d : Nat} (h : d < 10) : (Char.ofNat (48 + d)).isDigit = true := by
  interval_cases d <;> decide

theorem digit_toNat {d : Nat} (h : d < 10) : (Char.ofNat (48 + d)).toNat = 48 + d := by
  interval_cases d <;> decide

theorem digitsToNat_append_digit (l : JStr) (c : Char) :
    digitsToNat (l ++ [c]) = 10 * digitsToNat l + (c.toNat - 48) := by
  simp [digitsToNat, List.foldl_append]

theorem natCharsAux_ne_nil {fuel n : Nat} (h : n < fuel) : natCharsAux fuel n ≠ [] := by
  cases fuel with
  | zero => omega
  | succ f =>
    unfold natCharsAux
    split <;> simp

theorem natCharsAux_all_digit {fuel n : Nat} (h : n < fuel) :
    ∀ c ∈ natCharsAux fuel n, c.isDigit = true := by
  induction fuel generalizing n with
  | zero => omega
  | succ f ih =>
    unfold natCharsAux
    split
    · intro c hc
      simp at hc
      subst hc
      exact digit_isDigit (by omega)
    · intro c hc
      rcases List.mem_append.mp hc with h1 | h2
      · exact ih (by omega) c h1
      · simp at h2
        subst h2
        exact digit_isDigit (by omega)

theorem digitsToNat_natCharsAux {fuel n : Nat} (h : n < fuel) :
    digitsToNat (natCharsAux fuel n) = n := by
  induction fuel generalizing n with
  | zero => omega
  | succ f ih =>
    unfold natCharsAux
    split
    · next hlt =>
      simp [digitsToNat, digit_toNat hlt]
    · next hge =>
      rw [digitsToNat_append_digit, ih (by omega), digit_toNat (by omega)]
      omega

theorem natChars_ne_nil (n : Nat) : natChars n ≠ [] :=
  natCharsAux_ne_nil (Nat.lt_succ_self n)

theorem natChars_all_digit (n : Nat) : ∀ c ∈ natChars n, c.isDigit = true :=
  natCharsAux_all_digit (Nat.lt_succ_self n)

theorem digitsToNat_natChars (n : Nat) : digitsToNat (natChars n) = n :=
  digitsToNat_natCharsAux (Nat.lt_succ_self n)

theorem isDigit_ne_dot {c : Char} (h : c.isDigit = true) : c ≠ '.' := by
  intro he
  subst he
  simp [Char.isDigit] at h

theorem isDigit_ne_dash {c : Char} (h : c.isDigit = true) : c ≠ '-' := by
  intro he
  subst he
  simp [Char.isDigit] at h

theorem isDigit_ne_plus {c : Char} (h : c.isDigit = true) : c ≠ '+' := by
  intro he
  subst he
  simp [Char.isDigit] at h

theorem intChars_natCast (n : Nat) : intChars (n : Int) = natChars n := by
  simp [intChars]

theorem intChars_natCast_succ (n : Nat) : intChars ((n : Int) + 1) = natChars (n + 1) := by
  have : ((n : Int) + 1) = ((n + 1 : Nat) : Int) := by push_cast; ring
  rw [this, intChars_natCast]

theorem splitOnChar_cons (sep c : Char) (cs : JStr) :
    splitOnChar sep (c :: cs) =
      if c = sep then [] :: splitOnChar sep cs
      else
        match splitOnChar sep cs with
        | [] => [[c]]
        | s :: rest => (c :: s) :: rest := rfl

theorem splitOnChar_no_sep {sep : Char} {a : JStr} (h : sep ∉ a) :
    splitOnChar sep a = [a] := by
  induction a with
  | nil => rfl
  | cons c cs ih =>
    rw [splitOnChar_cons, if_neg (by simp at h; exact fun he => h.1 he.symm),
      ih (by simp at h; exact h.2)]

theorem splitOnChar_append_sep {sep : Char} {a t : JStr} (h : sep ∉ a) :
    splitOnChar sep (a ++ sep :: t) = a :: splitOnChar sep t := by
  induction a with
  | nil =>
    simp [splitOnChar]
  | cons c cs ih =>
    rw [List.cons_append, splitOnChar_cons,
      if_neg (by simp at h; exact fun he => h.1 he.symm), ih (by simp at h; exact h.2)]

theorem jsNumber_cons (c : Char) (rest : JStr) :
    jsNumber (c :: rest) =
      if c = '-' then
        if rest ≠ [] ∧ rest.all Char.isDigit then some (-(digitsToNat rest : Int)) else none
      else if c = '+' then
        if rest ≠ [] ∧ rest.all Char.isDigit then some ((digitsToNat rest : Int)) else none
      else if (c :: rest).all Char.isDigit then some ((digitsToNat (c :: rest) : Int))
      else none := rfl

theorem jsNumber_digits {s : JStr} (h1 : s ≠ []) (h2 : ∀ c ∈ s, c.isDigit = true) :
    jsNumber s = some ((digitsToNat s : Int)) := by
  cases s with
  | nil => exact absurd rfl h1
  | cons c rest =>
    have hc : c.isDigit = true := h2 c (by simp)
    rw [jsNumber_cons, if_neg (isDigit_ne_dash hc), if_neg (isDigit_ne_plus hc),
      if_pos (by rw [List.all_eq_true]; intro x hx; exact h2 x hx)]

theorem bumpVersion_of_parts {v : JStr} {a b c : Int}
    (h : (splitOnChar '.' v).map jsNumber = [some a, some b, some c])
    (k : RT) (br : Bool) :
    bumpVersion v k br =
      .ok (match k with
        | .major =>
          if br ∧ a = 0 then intChars a ++ '.' :: intChars (b + 1) ++ ['.', '0']
          else intChars (a + 1) ++ ['.', '0', '.', '0']
        | .minor => intChars a ++ '.' :: intChars (b + 1) ++ ['.', '0']
        | .patch => intChars a ++ '.' :: intChars b ++ '.' :: intChars (c + 1)) := by
  unfold bumpVersion
  rw [h]

/-- Claim C1: For every version string of exactly three dot-separated
non-negative integer components X.Y.Z (given as digit segments `a`, `b`,
`c`), every bump kind, and every value of the isBreaking flag, `bumpVersion`
returns: for `patch`, X.Y.(Z+1); for `minor`, X.(Y+1).0; for `major` with
isBreaking false or X ≥ 1, (X+1).0.0; and for `major` with isBreaking true
and X = 0, 0.(Y+1).0.  Moreover for `patch` and `minor` the result never
depends on the isBreaking flag. -/
theorem bumpVersion_spec :
    (∀ (a b c : JStr) (k : RT) (br : Bool),
      a ≠ [] → (∀ ch ∈ a, ch.isDigit = true) →
      b ≠ [] → (∀ ch ∈ b, ch.isDigit = true) →
      c ≠ [] → (∀ ch ∈ c, ch.isDigit = true) →
      bumpVersion (a ++ '.' :: b ++ '.' :: c) k br =
        .ok (match k with
          | .patch =>
            natChars (digitsToNat a) ++ '.' :: natChars (digitsToNat b) ++
              '.' :: natChars (digitsToNat c + 1)
          | .minor =>
            natChars (digitsToNat a) ++ '.' :: natChars (digitsToNat b + 1) ++ ['.', '0']
          | .major =>
            if br ∧ digitsToNat a = 0 then
              natChars (digitsToNat a) ++ '.' :: natChars (digitsToNat b + 1) ++ ['.', '0']
            else natChars (digitsToNat a + 1) ++ ['.', '0', '.', '0'])) ∧
    (∀ (v : JStr) (br : Bool),
      bumpVersion v .patch br = bumpVersion v .patch false ∧
      bumpVersion v .minor br = bumpVersion v .minor false) := by
  constructor
  · intro a b c k br ha1 ha2 hb1 hb2 hc1 hc2
    have hparts : (splitOnChar '.' (a ++ '.' :: b ++ '.' :: c)).map jsNumber =
        [some ((digitsToNat a : Int)), some ((digitsToNat b : Int)),
          some ((digitsToNat c : Int))] := by
      have hna : '.' ∉ a := fun hm => isDigit_ne_dot (ha2 _ hm) rfl
      have hnb : '.' ∉ b := fun hm => isDigit_ne_dot (hb2 _ hm) rfl
      have hnc : '.' ∉ c := fun hm => isDigit_ne_dot (hc2 _ hm) rfl
      rw [show a ++ '.' :: b ++ '.' :: c = a ++ '.' :: (b ++ '.' :: c) by simp,
        splitOnChar_append_sep hna, splitOnChar_append_sep hnb, splitOnChar_no_sep hnc]
      simp [jsNumber_digits ha1 ha2, jsNumber_digits hb1 hb2, jsNumber_digits hc1 hc2]
    rw [bumpVersion_of_parts hparts]
    cases k with
    | patch =>
      simp only [intChars_natCast, intChars_natCast_succ]
    | minor =>
      simp only [intChars_natCast, intChars_natCast_succ]
    | major =>
      by_cases hz : br = true ∧ digitsToNat a = 0
      · have hz' : br = true ∧ ((digitsToNat a : Int)) = 0 :=
          ⟨hz.1, by exact_mod_cast hz.2⟩
        rw [if_pos hz', if_pos hz]
        simp only [intChars_natCast, intChars_natCast_succ]
      · have hz' : ¬(br = true ∧ ((digitsToNat a : Int)) = 0) := by
          intro hcon
          exact hz ⟨hcon.1, by exact_mod_cast hcon.2⟩
        rw [if_neg hz', if_neg hz, intChars_natCast_succ]
  · intro v br
    constructor <;> (unfold bumpVersion; split <;> rfl)

/-- Witness for C1 at the concrete input "1.2.3", bump kind patch,
isBreaking true. -/
theorem bumpVersion_spec_witness :
    bumpVersion (js "1.2.3") .patch true = .ok (js "1.2.4") := by
  have e : js "1.2.3" = ['1'] ++ '.' :: ['2'] ++ '.' :: ['3'] := by decide
  rw [e, bumpVersion_spec.1 ['1'] ['2'] ['3'] .patch true (by decide) (by decide)
    (by decide) (by decide) (by decide) (by decide)]
  exact congrArg Except.ok (by decide)

theorem jsNumericSegment_cons (c : Char) (rest : JStr) :
    jsNumericSegment (c :: rest) =
      if c = '-' ∨ c = '+' then !rest.isEmpty && rest.all Char.isDigit
      else (c :: rest).all Char.isDigit := rfl

theorem isSome_signBranch (x : Int) (rest : JStr) :
    (if rest ≠ [] ∧ rest.all Char.isDigit = true then some x else (none : Option Int)).isSome
      = (!rest.isEmpty && rest.all Char.isDigit) := by
  by_cases h : rest ≠ [] ∧ rest.all Char.isDigit = true
  · rw [if_pos h]
    simp [h.1, h.2, List.isEmpty_iff]
  · rw [if_neg h]
    rcases Decidable.not_and_iff_or_not.mp h with h3 | h3
    · have : rest = [] := by simpa using h3
      subst this
      simp
    · rw [Bool.not_eq_true] at h3
      simp [h3]

theorem jsNumber_isSome_eq (s : JStr) : (jsNumber s).isSome = jsNumericSegment s := by
  cases s with
  | nil => rfl
  | cons c rest =>
    by_cases h1 : c = '-'
    · rw [jsNumber_cons, jsNumericSegment_cons, if_pos h1, if_pos (Or.inl h1),
        isSome_signBranch]
    · by_cases h2 : c = '+'
      · rw [jsNumber_cons, jsNumericSegment_cons, if_neg h1, if_pos h2,
          if_pos (Or.inr h2), isSome_signBranch]
      · have hor : ¬(c = '-' ∨ c = '+') := by tauto
        rw [jsNumber_cons, jsNumericSegment_cons, if_neg h1, if_neg h2, if_neg hor]
        by_cases h4 : (c :: rest).all Char.isDigit = true
        · rw [if_pos h4, h4]
          rfl
        · rw [if_neg h4]
          rw [Bool.not_eq_true] at h4
          simp [h4]

theorem bumpVersion_isOk_eq (v : JStr) (k : RT) (br : Bool) :
    (bumpVersion v k br).isOk =
      ((splitOnChar '.' v).length == 3 &&
        (splitOnChar '.' v).all (fun s => jsNumericSegment s)) := by
  unfold bumpVersion
  generalize splitOnChar '.' v = ps
  rcases ps with _ | ⟨a, _ | ⟨b, _ | ⟨c, _ | ⟨d, tl⟩⟩⟩⟩
  · rfl
  · cases h1 : jsNumber a <;>
      simp [← jsNumber_isSome_eq, h1, Except.isOk, Except.toBool]
  · cases h1 : jsNumber a <;> cases h2 : jsNumber b <;>
      simp [← jsNumber_isSome_eq, h1, h2, Except.isOk, Except.toBool]
  · cases h1 : jsNumber a <;> cases h2 : jsNumber b <;> cases h3 : jsNumber c <;>
      simp [← jsNumber_isSome_eq, h1, h2, h3, Except.isOk, Except.toBool]
  · cases h1 : jsNumber a <;> cases h2 : jsNumber b <;> cases h3 : jsNumber c <;>
      cases h4 : jsNumber d <;> simp [← jsNumber_isSome_eq, h1, h2, h3, h4, Except.isOk, Except.toBool]

theorem threePart_segments {v : JStr} (h : threePartNumeric v = true) :
    (splitOnChar '.' v).length = 3 ∧ ∀ s ∈ splitOnChar '.' v, jsNumericSegment s = true := by
  unfold threePartNumeric at h
  rw [Bool.and_eq_true, List.all_eq_true] at h
  refine ⟨by simpa using h.1, fun s hs => ?_⟩
  have := h.2 s hs
  rw [Bool.and_eq_true] at this
  cases s with
  | nil => simp [List.isEmpty_iff] at this
  | cons c rest =>
    rw [jsNumericSegment_cons]
    have hd : c.isDigit = true := by
      have := this.2
      rw [List.all_eq_true] at this
      exact this c (by simp)
    rw [if_neg (by rintro (h | h) <;> subst h <;> simp [Char.isDigit] at hd)]
    exact this.2

/-- Claim C7 (amended): `bumpVersion` raises an error exactly when the
version does not split into three dot-separated segments each accepted by
the JavaScript `Number` coercion (the empty segment coerces to 0 and signed
integer segments are accepted); every string of exactly three dot-separated
non-negative integer components is accepted.  The original claim's "only if"
direction fails: inputs such as "1..2" that are not three non-negative
integer components are nevertheless accepted (see the counterexample). -/
theorem bumpVersion_error_characterization :
    (∀ (v : JStr) (k : RT) (br : Bool),
      (bumpVersion v k br).isOk = false ↔
        ¬((splitOnChar '.' v).length = 3 ∧
          ∀ s ∈ splitOnChar '.' v, jsNumericSegment s = true)) ∧
    (∀ (v : JStr) (k : RT) (br : Bool),
      threePartNumeric v = true → (bumpVersion v k br).isOk = true) := by
  have key : ∀ (v : JStr) (k : RT) (br : Bool),
      (bumpVersion v k br).isOk = true ↔
        ((splitOnChar '.' v).length = 3 ∧
          ∀ s ∈ splitOnChar '.' v, jsNumericSegment s = true) := by
    intro v k br
    rw [bumpVersion_isOk_eq, Bool.and_eq_true, List.all_eq_true]
    constructor
    · rintro ⟨h1, h2⟩
      exact ⟨by simpa using h1, h2⟩
    · rintro ⟨h1, h2⟩
      exact ⟨by simpa using h1, h2⟩
  constructor
  · intro v k br
    rw [← key v k br]
    cases h : (bumpVersion v k br).isOk <;> simp
  · intro v k br h
    exact (key v k br).mpr (threePart_segments h)

/-- Counterexample for C7 as stated: "1..2" is not a string of three
dot-separated non-negative integer components, yet `bumpVersion` accepts it
without error (JavaScript's `Number("")` is `0`), so the "error if" direction
of the claimed equivalence is false. -/
theorem bumpVersion_error_characterization_counterexample :
    threePartNumeric (js "1..2") = false ∧
      (bumpVersion (js "1..2") .patch false).isOk = true := by decide

/-- Witness for C7 at the concrete input "1.2.3". -/
theorem bumpVersion_error_characterization_witness :
    (bumpVersion (js "1.2.3") .minor false).isOk = true :=
  bumpVersion_error_characterization.2 (js "1.2.3") .minor false (by decide)

theorem isPrefixOf_append (a b : JStr) : a.isPrefixOf (a ++ b) = true := by
  rw [List.isPrefixOf_iff_prefix]
  exact List.prefix_append a b

/-- Claim C5 (amended): `updateDependencyRange` leaves `workspace:*` and bare
`*` unchanged; a `workspace:`-prefixed range is rewritten to `workspace:`
plus its operator prefix plus the new version, and any other range to its
leading run of range-operator characters plus the new version — provided the
range is free of line terminators.  (A range containing a line terminator
makes the anchored regular expression fail, and the function returns the
bare new version; see the counterexample.) -/
theorem updateDependencyRange_spec :
    (∀ nv : JStr, updateDependencyRange (js "workspace:*") nv = js "workspace:*") ∧
    (∀ nv rest : JStr, rest ≠ js "*" → rest.any jsLineTerm = false →
      updateDependencyRange (js "workspace:" ++ rest) nv =
        js "workspace:" ++ rest.takeWhile isOpChar ++ nv) ∧
    (∀ nv : JStr, updateDependencyRange (js "*") nv = js "*") ∧
    (∀ nv r : JStr, (js "workspace:").isPrefixOf r = false → r ≠ js "*" →
      r.any jsLineTerm = false →
      updateDependencyRange r nv = r.takeWhile isOpChar ++ nv) := by
  refine ⟨fun nv => ?_, fun nv rest h1 h2 => ?_, fun nv => ?_, fun nv r h1 h2 h3 => ?_⟩
  · unfold updateDependencyRange
    rw [if_pos (by decide), if_pos (by decide)]
  · unfold updateDependencyRange
    rw [if_pos (isPrefixOf_append _ _), List.drop_left, if_neg h1]
    unfold opVerMatch
    rw [if_neg (by simp [h2])]
  · unfold updateDependencyRange
    rw [if_neg (by decide), if_pos rfl]
  · unfold updateDependencyRange
    rw [if_neg (by simp [h1]), if_neg h2]
    unfold opVerMatch
    rw [if_neg (by simp [h3])]

/-- Witness for C5: rewriting `^1.0.0` to `1.1.0` yields `^1.1.0`. -/
theorem updateDependencyRange_spec_witness :
    updateDependencyRange (js "^1.0.0") (js "1.1.0") = js "^1.1.0" := by
  rw [updateDependencyRange_spec.2.2.2 (js "1.1.0") (js "^1.0.0") (by decide) (by decide)
    (by decide)]
  decide

/-- Counterexample for C5 as stated: the range `"~\n1.0.0"` has leading
operator run `~`, so the claim demands `~1.1.0`, but the anchored regular
expression `^([~^>=<]*)(.*)$` cannot match a string containing a line
terminator, and the code returns the bare new version `1.1.0`. -/
theorem updateDependencyRange_spec_counterexample :
    updateDependencyRange (js "~\n1.0.0") (js "1.1.0") = js "1.1.0" ∧
      updateDependencyRange (js "~\n1.0.0") (js "1.1.0") ≠
        (js "~\n1.0.0").takeWhile isOpChar ++ js "1.1.0" := by
  constructor
  · decide
  · decide

theorem isPrefixOf_cons₂ (a b : Char) (as bs : JStr) :
    (a :: as).isPrefixOf (b :: bs) = (a == b && as.isPrefixOf bs) := rfl

theorem splitOnFirst_cons (pat : JStr) (c : Char) (cs : JStr) :
    splitOnFirst pat (c :: cs) =
      if pat.isPrefixOf (c :: cs) then some ([], (c :: cs).drop pat.length)
      else (splitOnFirst pat cs).map (fun pr => (c :: pr.1, pr.2)) := rfl

theorem splitOnFirst_at_pat {pat : JStr} (hne : pat ≠ []) (s : JStr) :
    splitOnFirst pat (pat ++ s) = some ([], s) := by
  cases pat with
  | nil => exact absurd rfl hne
  | cons p ps =>
    have h1 : (p :: ps) ++ s = p :: (ps ++ s) := List.cons_append p ps s
    have hpre : (p :: ps).isPrefixOf ((p :: ps) ++ s) = true := by
      rw [List.isPrefixOf_iff_prefix]
      exact List.prefix_append _ s
    rw [h1, splitOnFirst_cons, ← h1, if_pos hpre, List.drop_left]

theorem splitOnFirst_skip {pat : JStr} {p' : JStr} (hp : pat = '\n' :: p')
    {l : JStr} (hl : '\n' ∉ l) (t : JStr) :
    splitOnFirst pat (l ++ t) =
      (splitOnFirst pat t).map (fun pr => (l ++ pr.1, pr.2)) := by
  induction l with
  | nil =>
    simp
  | cons c cs ih =>
    rw [List.cons_append, splitOnFirst_cons,
      if_neg (by
        subst hp
        rw [isPrefixOf_cons₂]
        simp
        intro he
        exact absurd he.symm (by simp at hl; exact fun hq => hl.1 hq.symm))]
    rw [ih (by simp at hl; exact hl.2)]
    cases splitOnFirst pat t <;> simp

theorem notPrefix_dashes {l' : JStr} (hnl : '\n' ∉ l')
    (hnd : (js "---").isPrefixOf l' = false) (t : JStr) :
    (js "---").isPrefixOf (l' ++ '\n' :: t) = false := by
  have e3 : js "---" = ['-', '-', '-'] := by decide
  rw [e3] at hnd ⊢
  rw [Bool.eq_false_iff, Ne, List.isPrefixOf_iff_prefix] at hnd ⊢
  intro hpre
  rcases l' with _ | ⟨a, _ | ⟨b, _ | ⟨c, rest⟩⟩⟩
  · rcases List.cons_prefix_cons.mp hpre with ⟨h1, _⟩
    exact absurd h1 (by decide)
  · rcases List.cons_prefix_cons.mp hpre with ⟨h1, h2⟩
    rcases List.cons_prefix_cons.mp h2 with ⟨h3, _⟩
    exact absurd h3 (by decide)
  · rcases List.cons_prefix_cons.mp hpre with ⟨h1, h2⟩
    rcases List.cons_prefix_cons.mp h2 with ⟨h3, h4⟩
    rcases List.cons_prefix_cons.mp h4 with ⟨h5, _⟩
    exact absurd h5 (by decide)
  · rcases List.cons_prefix_cons.mp hpre with ⟨h1, h2⟩
    rcases List.cons_prefix_cons.mp h2 with ⟨h3, h4⟩
    rcases List.cons_prefix_cons.mp h4 with ⟨h5, _⟩
    subst h1
    subst h3
    subst h5
    exact hnd (List.cons_prefix_cons.mpr ⟨rfl, List.cons_prefix_cons.mpr ⟨rfl,
      List.cons_prefix_cons.mpr ⟨rfl, List.nil_prefix⟩⟩⟩)

theorem joinNL_cons₂ (l l' : JStr) (r : List JStr) :
    joinNL (l :: l' :: r) = l ++ '\n' :: joinNL (l' :: r) := rfl

theorem splitOnFirst_fm {lines : List JStr} (s : JStr)
    (h : ∀ l ∈ lines, '\n' ∉ l ∧ (js "---").isPrefixOf l = false) :
    splitOnFirst (js "\n---") (joinNL lines ++ (js "\n---" ++ s)) =
      some (joinNL lines, s) := by
  have hpat : js "\n---" = '\n' :: js "---" := by decide
  induction lines with
  | nil =>
    simp only [show joinNL [] = [] from rfl, List.nil_append]
    exact splitOnFirst_at_pat (by decide) s
  | cons l rest ih =>
    have hl := h l (by simp)
    cases rest with
    | nil =>
      rw [show joinNL [l] = l from rfl, splitOnFirst_skip hpat hl.1,
        splitOnFirst_at_pat (by decide) s]
      simp
    | cons l' rest' =>
      have hl' := h l' (by simp)
      have hJ : ∃ t', joinNL (l' :: rest') ++ (js "\n---" ++ s) = l' ++ '\n' :: t' := by
        cases rest' with
        | nil =>
          refine ⟨js "---" ++ s, ?_⟩
          rw [show joinNL [l'] = l' from rfl, hpat]
          simp
        | cons l'' r'' =>
          exact ⟨joinNL (l'' :: r'') ++ (js "\n---" ++ s), by
            rw [joinNL_cons₂]
            simp⟩
      obtain ⟨t', ht'⟩ := hJ
      rw [joinNL_cons₂,
        show (l ++ '\n' :: joinNL (l' :: rest')) ++ (js "\n---" ++ s)
          = l ++ ('\n' :: (joinNL (l' :: rest') ++ (js "\n---" ++ s))) by simp,
        splitOnFirst_skip hpat hl.1, splitOnFirst_cons,
        if_neg (by
          rw [ht', hpat, isPrefixOf_cons₂, notPrefix_dashes hl'.1 hl'.2 t']
          simp),
        ih (fun x hx => h x (by simp [hx]))]
      simp

theorem extractFrontmatter_mk {lines : List JStr} (s : JStr)
    (h : ∀ l ∈ lines, '\n' ∉ l ∧ (js "---").isPrefixOf l = false) :
    extractFrontmatter (js "---\n" ++ (joinNL lines ++ (js "\n---" ++ s))) =
      some (joinNL lines, s) := by
  unfold extractFrontmatter
  rw [if_pos (isPrefixOf_append _ _), List.drop_left, splitOnFirst_fm s h]

theorem splitOnChar_joinNL {lines : List JStr} (hne : lines ≠ [])
    (h : ∀ l ∈ lines, '\n' ∉ l) : splitOnChar '\n' (joinNL lines) = lines := by
  induction lines with
  | nil => exact absurd rfl hne
  | cons l rest ih =>
    cases rest with
    | nil => exact splitOnChar_no_sep (h l (by simp))
    | cons l' rest' =>
      rw [joinNL_cons₂, splitOnChar_append_sep (h l (by simp)),
        ih (by simp) (fun x hx => h x (by simp [hx]))]

theorem length_filterMap_isSome {α β γ : Type _} (g : α → Option β) (f : α → β → γ)
    (l : List α) :
    (l.filterMap (fun x => (g x).map (f x))).length =
      (l.filter (fun x => (g x).isSome)).length := by
  induction l with
  | nil => rfl
  | cons x xs ih =>
    cases hg : g x <;> simp [List.filterMap_cons, hg, List.filter_cons, ih]

theorem parseChangesetFile_of_fm {types : List ChangesetType} {content fm r : JStr}
    (h : extractFrontmatter content = some (fm, r)) :
    parseChangesetFile types content =
      (splitOnChar '\n' fm).filterMap (fun line =>
        (parseDeclLine line).map (fun d =>
          { type := resolveReleaseType types d.2.1 (d.2.2 = js "!") (d.2.2 = js "@major"),
            packageName := d.1,
            message := extractMessage content,
            changesetType := d.2.1,
            isBreaking := d.2.2 = js "!" })) := by
  unfold parseChangesetFile
  rw [h]

/-- Claim C6: parsing a changeset document never errors on malformed input:
a document with a valid frontmatter block of arbitrary lines yields exactly
one record per line matching the declaration pattern regardless of how many
unparseable lines are interleaved and where; a document lacking the
frontmatter delimiters (no match of the frontmatter pattern) yields an empty
list; and a document with an empty frontmatter block yields an empty list.
(The lines are assumed free of newlines — they are the result of a split on
newlines — and no line may begin with `---`, which would close the
frontmatter block early.) -/
theorem parseChangesetFile_robust :
    (∀ (types : List ChangesetType) (lines : List JStr) (s : JStr),
      (∀ l ∈ lines, '\n' ∉ l ∧ (js "---").isPrefixOf l = false) →
      (parseChangesetFile types
          (js "---\n" ++ (joinNL lines ++ (js "\n---" ++ s)))).length =
        (lines.filter (fun l => (parseDeclLine l).isSome)).length) ∧
    (∀ (types : List ChangesetType) (content : JStr),
      extractFrontmatter content = none → parseChangesetFile types content = []) ∧
    (∀ (types : List ChangesetType) (s : JStr),
      parseChangesetFile types (js "---\n\n---" ++ s) = []) := by
  refine ⟨fun types lines s h => ?_, fun types content h => ?_, fun types s => ?_⟩
  · rw [parseChangesetFile_of_fm (extractFrontmatter_mk s h)]
    cases lines with
    | nil =>
      rw [show joinNL [] = [] from rfl, show splitOnChar '\n' [] = [[]] from rfl]
      simp [List.filterMap_cons, show parseDeclLine [] = none from rfl]
    | cons l0 rest0 =>
      rw [splitOnChar_joinNL (by simp) (fun x hx => (h x hx).1)]
      exact length_filterMap_isSome _ _ _
  · unfold parseChangesetFile
    rw [h]
  · have e : js "---\n\n---" ++ s = js "---\n" ++ (joinNL [] ++ (js "\n---" ++ s)) := by
      rw [show joinNL [] = [] from rfl, List.nil_append, ← List.append_assoc]
      rw [show js "---\n" ++ js "\n---" = js "---\n\n---" from by decide]
    rw [e, parseChangesetFile_of_fm (extractFrontmatter_mk s (by simp))]
    rw [show joinNL [] = [] from rfl, show splitOnChar '\n' [] = [[]] from rfl]
    simp [List.filterMap_cons, show parseDeclLine [] = none from rfl]

/-- Witness for C6: a frontmatter with one valid declaration line and one
garbage line yields exactly one record. -/
theorem parseChangesetFile_robust_witness :
    (parseChangesetFile []
        (js "---\n" ++ (joinNL [js "\"a\": feat", js "garbage"] ++
          (js "\n---" ++ js "\nmsg")))).length = 1 := by
  rw [parseChangesetFile_robust.1 [] [js "\"a\": feat", js "garbage"] (js "\nmsg")
    (by decide)]
  decide

theorem alGet_alSet_self {α : Type _} (m : List (JStr × α)) (k : JStr) (v : α) :
    alGet (alSet m k v) k = some v := by
  induction m with
  | nil => simp [alGet, alSet]
  | cons e rest ih =>
    by_cases h : e.1 = k
    · simp [alSet, h, alGet]
    · simp [alSet, h, alGet, ih]

theorem alGet_alSet_ne {α : Type _} {m : List (JStr × α)} {k k' : JStr} (v : α)
    (h : k' ≠ k) : alGet (alSet m k v) k' = alGet m k' := by
  have hkk : ¬(k = k') := fun he => h he.symm
  induction m with
  | nil => simp [alSet, alGet, hkk]
  | cons e rest ih =>
    by_cases he : e.1 = k
    · have he' : ¬(e.1 = k') := fun q => hkk (he.symm.trans q)
      simp [alSet, he, alGet, hkk, he']
    · by_cases he' : e.1 = k'
      · simp [alSet, he, alGet, he', h]
      · simp [alSet, he, alGet, he', ih, h]

theorem mem_alSet {α : Type _} {m : List (JStr × α)} {k : JStr} {v : α} {e : JStr × α}
    (h : e ∈ alSet m k v) : e = (k, v) ∨ e ∈ m := by
  induction m with
  | nil =>
    rw [alSet] at h
    exact Or.inl (List.mem_singleton.mp h)
  | cons e' rest ih =>
    by_cases he : e'.1 = k
    · rw [alSet, if_pos he] at h
      rcases List.mem_cons.mp h with h | h
      · exact Or.inl h
      · exact Or.inr (List.mem_cons_of_mem _ h)
    · rw [alSet, if_neg he] at h
      rcases List.mem_cons.mp h with h | h
      · exact Or.inr (h ▸ List.mem_cons_self e' rest)
      · rcases ih h with h' | h'
        · exact Or.inl h'
        · exact Or.inr (List.mem_cons_of_mem _ h')

theorem alGet_mem {α : Type _} {m : List (JStr × α)} {k : JStr} {v : α}
    (h : alGet m k = some v) : (k, v) ∈ m := by
  induction m with
  | nil => simp [alGet] at h
  | cons e rest ih =>
    by_cases he : e.1 = k
    · rw [alGet, if_pos he] at h
      have hv : e.2 = v := Option.some.inj h
      have hekv : e = (k, v) := by
        cases e
        simp at he hv
        simp [he, hv]
      rw [← hekv]
      exact List.mem_cons_self _ _
    · rw [alGet, if_neg he] at h
      exact List.mem_cons_of_mem _ (ih h)

theorem alGet_isSome_of_mem_keys {α : Type _} {m : List (JStr × α)} {k : JStr}
    (h : k ∈ m.map (fun e => e.1)) : (alGet m k).isSome = true := by
  induction m with
  | nil => simp at h
  | cons e rest ih =>
    by_cases he : e.1 = k
    · simp [alGet, he]
    · rw [alGet, if_neg he]
      rcases List.mem_map.mp h with ⟨x, hx, hk⟩
      rcases List.mem_cons.mp hx with hx' | hx'
      · exact absurd (hx' ▸ hk) he
      · exact ih (List.mem_map.mpr ⟨x, hx', hk⟩)

theorem occursIn_starts (pat t : JStr) : occursIn pat (pat ++ t) = true := by
  cases pat with
  | nil =>
    cases t <;> simp [occursIn, splitOnFirst]
  | cons p ps =>
    unfold occursIn
    rw [List.cons_append, splitOnFirst_cons, ← List.cons_append,
      if_pos (isPrefixOf_append _ _)]
    rfl

theorem occursIn_cons {pat s : JStr} (c : Char) (h : occursIn pat s = true) :
    occursIn pat (c :: s) = true := by
  unfold occursIn at h ⊢
  rw [splitOnFirst_cons]
  by_cases hp : pat.isPrefixOf (c :: s) = true
  · rw [if_pos hp]
    rfl
  · rw [if_neg hp]
    cases hs : splitOnFirst pat s
    · rw [hs] at h
      simp at h
    · simp [hs]

theorem occursIn_append_l {pat s : JStr} (t : JStr) (h : occursIn pat s = true) :
    occursIn pat (t ++ s) = true := by
  induction t with
  | nil => simpa using h
  | cons c cs ih => exact List.cons_append c cs s ▸ occursIn_cons c ih

theorem mem_orderedInsertK {key : JStr → Nat} {x a : JStr} {l : List JStr}
    (h : a ∈ orderedInsertK key x l) : a = x ∨ a ∈ l := by
  induction l with
  | nil => simpa [orderedInsertK] using h
  | cons y ys ih =>
    rw [orderedInsertK] at h
    by_cases hxy : key x ≤ key y
    · rw [if_pos hxy] at h
      rcases List.mem_cons.mp h with h | h
      · exact Or.inl h
      · exact Or.inr h
    · rw [if_neg hxy] at h
      rcases List.mem_cons.mp h with h | h
      · exact Or.inr (by simp [h])
      · rcases ih h with h' | h'
        · exact Or.inl h'
        · exact Or.inr (by simp [h'])

theorem pairwise_orderedInsertK {key : JStr → Nat} {x : JStr} {l : List JStr}
    (h : List.Pairwise (fun a b => key a ≤ key b) l) :
    List.Pairwise (fun a b => key a ≤ key b) (orderedInsertK key x l) := by
  induction l with
  | nil => simp [orderedInsertK]
  | cons y ys ih =>
    rw [orderedInsertK]
    by_cases hxy : key x ≤ key y
    · rw [if_pos hxy]
      refine List.Pairwise.cons (fun z hz => ?_) h
      rcases List.mem_cons.mp hz with hz' | hz'
      · exact hz' ▸ hxy
      · exact le_trans hxy (List.rel_of_pairwise_cons h hz')
    · rw [if_neg hxy]
      refine List.Pairwise.cons (fun z hz => ?_) (ih (List.Pairwise.of_cons h))
      rcases mem_orderedInsertK hz with hz' | hz'
      · exact hz' ▸ le_of_lt (lt_of_not_le hxy)
      · exact List.rel_of_pairwise_cons h hz'

theorem pairwise_insertionSortK (key : JStr → Nat) (l : List JStr) :
    List.Pairwise (fun a b => key a ≤ key b) (insertionSortK key l) := by
  induction l with
  | nil => simp [insertionSortK]
  | cons x xs ih =>
    rw [insertionSortK]
    exact pairwise_orderedInsertK ih

theorem perm_orderedInsertK (key : JStr → Nat) (x : JStr) (l : List JStr) :
    (orderedInsertK key x l).Perm (x :: l) := by
  induction l with
  | nil => simp [orderedInsertK]
  | cons y ys ih =>
    rw [orderedInsertK]
    by_cases hxy : key x ≤ key y
    · rw [if_pos hxy]
    · rw [if_neg hxy]
      exact (ih.cons y).trans (List.Perm.swap x y ys)

theorem perm_insertionSortK (key : JStr → Nat) (l : List JStr) :
    (insertionSortK key l).Perm l := by
  induction l with
  | nil => simp [insertionSortK]
  | cons x xs ih =>
    rw [insertionSortK]
    exact (perm_orderedInsertK key x (insertionSortK key xs)).trans (ih.cons x)

theorem filter_orderedInsertK (key : JStr → Nat) (x : JStr) (l : List JStr) (k : Nat) :
    (orderedInsertK key x l).filter (fun t => key t = k) =
      if key x = k then x :: l.filter (fun t => key t = k)
      else l.filter (fun t => key t = k) := by
  induction l with
  | nil => by_cases hx : key x = k <;> simp [orderedInsertK, hx]
  | cons y ys ih =>
    rw [orderedInsertK]
    by_cases hxy : key x ≤ key y
    · rw [if_pos hxy]
      by_cases hx : key x = k <;> simp [hx, List.filter_cons]
    · rw [if_neg hxy]
      by_cases hx : key x = k
      · have hy : ¬(key y = k) := by omega
        simp [List.filter_cons, hy, ih, hx]
      · simp [List.filter_cons, ih, hx]

theorem filter_insertionSortK (key : JStr → Nat) (l : List JStr) (k : Nat) :
    (insertionSortK key l).filter (fun t => key t = k) =
      l.filter (fun t => key t = k) := by
  induction l with
  | nil => rfl
  | cons x xs ih =>
    rw [insertionSortK, filter_orderedInsertK, ih]
    by_cases hx : key x = k <;> simp [List.filter_cons, hx]

theorem occursIn_append_r {pat s : JStr} (t : JStr) (h : occursIn pat s = true) :
    occursIn pat (s ++ t) = true := by
  induction s with
  | nil =>
    have hp : pat = [] := by
      unfold occursIn splitOnFirst at h
      by_cases hq : pat = []
      · exact hq
      · rw [if_neg hq] at h
        simp at h
    subst hp
    simpa using occursIn_starts [] t
  | cons c cs ih =>
    unfold occursIn at h ⊢
    rw [splitOnFirst_cons] at h
    rw [List.cons_append, splitOnFirst_cons]
    by_cases hp : pat.isPrefixOf (c :: cs) = true
    · have hp2 : pat.isPrefixOf (c :: (cs ++ t)) = true := by
        rw [List.isPrefixOf_iff_prefix] at hp ⊢
        rw [← List.cons_append]
        exact hp.trans (List.prefix_append _ _)
      rw [if_pos hp2]
      rfl
    · rw [if_neg hp] at h
      by_cases hp2 : pat.isPrefixOf (c :: (cs ++ t)) = true
      · rw [if_pos hp2]
        rfl
      · rw [if_neg hp2]
        have hcs : occursIn pat cs = true := by
          unfold occursIn
          cases hx : splitOnFirst pat cs
          · rw [hx] at h
            simp at h
          · rfl
        have h2 := ih hcs
        unfold occursIn at h2
        cases hx : splitOnFirst pat (cs ++ t)
        · rw [hx] at h2
          simp at h2
        · simp [hx]

theorem collect_snd (pkg : JStr) (docs : List JStr) :
    ∀ (G0 : List (JStr × List JStr)) (B0 : List JStr),
      (collectBucketsAux pkg docs G0 B0).2 = B0 ++ docs.filterMap (breakingMsgOf pkg) := by
  induction docs with
  | nil =>
    intro G0 B0
    simp [collectBucketsAux]
  | cons content rest ih =>
    intro G0 B0
    cases hfm : extractFrontmatter content with
    | none =>
      simp only [collectBucketsAux, hfm, List.filterMap_cons, breakingMsgOf, docFirstMatch]
      exact ih G0 B0
    | some pr =>
      cases hfl : firstMatchingLine pkg (splitOnChar '\n' pr.1) with
      | none =>
        simp only [collectBucketsAux, hfm, hfl, List.filterMap_cons, breakingMsgOf,
          docFirstMatch]
        exact ih G0 B0
      | some d =>
        simp only [collectBucketsAux, hfm, hfl, List.filterMap_cons, breakingMsgOf,
          docFirstMatch]
        by_cases hbang : d.2 = true
        · rw [if_pos hbang, if_pos hbang, ih G0 (B0 ++ [extractMessage content])]
          simp
        · rw [if_neg hbang, if_neg hbang, ih _ B0]

theorem collect_fst_get (pkg ty : JStr) (docs : List JStr) :
    ∀ (G0 : List (JStr × List JStr)) (B0 : List JStr),
      (alGet (collectBucketsAux pkg docs G0 B0).1 ty).getD [] =
        (alGet G0 ty).getD [] ++ docs.filterMap (typeMsgOf pkg ty) := by
  induction docs with
  | nil =>
    intro G0 B0
    simp [collectBucketsAux]
  | cons content rest ih =>
    intro G0 B0
    cases hfm : extractFrontmatter content with
    | none =>
      simp only [collectBucketsAux, hfm, List.filterMap_cons, typeMsgOf, docFirstMatch]
      exact ih G0 B0
    | some pr =>
      cases hfl : firstMatchingLine pkg (splitOnChar '\n' pr.1) with
      | none =>
        simp only [collectBucketsAux, hfm, hfl, List.filterMap_cons, typeMsgOf,
          docFirstMatch]
        exact ih G0 B0
      | some d =>
        simp only [collectBucketsAux, hfm, hfl, List.filterMap_cons, typeMsgOf,
          docFirstMatch]
        by_cases hbang : d.2 = true
        · rw [if_pos hbang, if_neg (by simp [hbang]), ih G0 (B0 ++ [extractMessage content])]
        · have hb2 : d.2 = false := by simpa using hbang
          by_cases hty : d.1 = ty
          · rw [if_neg hbang, if_pos (And.intro hty hb2), ih _ B0, hty, alGet_alSet_self]
            simp
          · rw [if_neg hbang, if_neg (fun q => hty q.1), ih _ B0,
              alGet_alSet_ne _ (fun q => hty q.symm)]

theorem collect_groups_ne_nil (pkg : JStr) (docs : List JStr) :
    ∀ (G0 : List (JStr × List JStr)) (B0 : List JStr),
      (∀ e ∈ G0, e.2 ≠ []) →
      ∀ e ∈ (collectBucketsAux pkg docs G0 B0).1, e.2 ≠ [] := by
  induction docs with
  | nil =>
    intro G0 B0 h
    simpa [collectBucketsAux] using h
  | cons content rest ih =>
    intro G0 B0 h
    cases hfm : extractFrontmatter content with
    | none =>
      simp only [collectBucketsAux, hfm]
      exact ih G0 B0 h
    | some pr =>
      cases hfl : firstMatchingLine pkg (splitOnChar '\n' pr.1) with
      | none =>
        simp only [collectBucketsAux, hfm, hfl]
        exact ih G0 B0 h
      | some d =>
        simp only [collectBucketsAux, hfm, hfl]
        by_cases hbang : d.2 = true
        · rw [if_pos hbang]
          exact ih G0 _ h
        · rw [if_neg hbang]
          refine ih _ B0 (fun e he => ?_)
          rcases mem_alSet he with he' | he'
          · rw [he']
            simp
          · exact h e he'

theorem renderTypeBlocks_heading {types : List ChangesetType}
    {G : List (JStr × List JStr)} {ty : JStr} {l : List JStr} (hmem : ty ∈ l)
    (hne : (alGet G ty).getD [] ≠ []) :
    occursIn (js "### " ++ emojiOf types ty ++ js " " ++ ty ++ js "\n")
      (renderTypeBlocks types G l) = true := by
  induction l with
  | nil => simp at hmem
  | cons hd rest ih =>
    rw [renderTypeBlocks]
    by_cases hh : (alGet G hd).getD [] = []
    · rw [if_pos hh]
      rcases List.mem_cons.mp hmem with he | he
      · exact absurd (he ▸ hh) hne
      · exact ih he
    · rw [if_neg hh]
      rcases List.mem_cons.mp hmem with he | he
      · subst he
        have hshape :
            js "### " ++ emojiOf types ty ++ js " " ++ ty ++ js "\n" ++
                renderMsgs ((alGet G ty).getD []) ++ js "\n" ++
                renderTypeBlocks types G rest =
              (js "### " ++ emojiOf types ty ++ js " " ++ ty ++ js "\n") ++
                (renderMsgs ((alGet G ty).getD []) ++
                  (js "\n" ++ renderTypeBlocks types G rest)) := by
          simp [List.append_assoc]
        rw [hshape]
        exact occursIn_starts _ _
      · exact occursIn_append_l _ (ih he)

/-- Claim C8 (amended): per changeset document, only the first declaration
line matching the target package is bucketed; the document's message goes to
the Breaking Changes bucket exactly when that first matching declaration
carries the `!` suffix (an `@major` suffix does not set the breaking flag,
so explicit-major documents land under their declared type's group); and the
Breaking Changes block, when non-empty, is rendered before every per-type
block.  The original claim's "every matching declaration carrying `!`" fails
because of the per-document `break`: a later `!` declaration in the same
document is ignored (see the counterexample). -/
theorem generateChangelog_breaking_placement
    (types : List ChangesetType) (pkg version date : JStr) (docs : List JStr)
    (deps : Option (List DependencyUpdate)) :
    (collectBucketsAux pkg docs [] []).2 = docs.filterMap (breakingMsgOf pkg) ∧
    (∀ ty, (alGet (collectBucketsAux pkg docs [] []).1 ty).getD [] =
      docs.filterMap (typeMsgOf pkg ty)) ∧
    (∃ p q, generateChangelog types pkg version docs deps date = p ++ q ∧
      ((collectBucketsAux pkg docs [] []).2 ≠ [] →
        occursIn (js "⚠️ Breaking Changes") p = true) ∧
      (∀ ty, ty ∈ (collectBucketsAux pkg docs [] []).1.map (fun e => e.1) →
        occursIn (js "### " ++ emojiOf types ty ++ js " " ++ ty ++ js "\n") q = true)) := by
  refine ⟨collect_snd pkg docs [] [], fun ty => by
    simpa [alGet] using collect_fst_get pkg ty docs [] [], ?_⟩
  simp only [generateChangelog]
  by_cases hcase : (collectBucketsAux pkg docs [] []).1.length = 0 ∧
      (collectBucketsAux pkg docs [] []).2.length = 0
  · rw [if_pos hcase]
    refine ⟨_, [], (List.append_nil _).symm, fun hbne => ?_, fun ty hty => ?_⟩
    · exact absurd (List.length_eq_zero.mp hcase.2) hbne
    · rw [List.length_eq_zero.mp hcase.1] at hty
      simp at hty
  · rw [if_neg hcase]
    refine ⟨_, _, rfl, fun hbne => ?_, fun ty hty => ?_⟩
    · have hlen : (collectBucketsAux pkg docs [] []).2.length > 0 :=
        List.length_pos.mpr hbne
      rw [if_pos hlen]
      apply occursIn_append_l
      rw [show js "⚠️ Breaking Changes\n" = js "⚠️ Breaking Changes" ++ ['\n'] from by decide]
      rw [show (js "⚠️ Breaking Changes" ++ ['\n']) ++
            renderMsgs (collectBucketsAux pkg docs [] []).2 ++ js "\n" =
          js "⚠️ Breaking Changes" ++
            (['\n'] ++ (renderMsgs (collectBucketsAux pkg docs [] []).2 ++ js "\n")) from by
        simp [List.append_assoc]]
      exact occursIn_starts _ _
    · apply renderTypeBlocks_heading
      · exact (perm_insertionSortK (sentinelIdx types) _).mem_iff.mpr hty
      · have hsome := alGet_isSome_of_mem_keys hty
        obtain ⟨v, hv⟩ := Option.isSome_iff_exists.mp hsome
        have hne := collect_groups_ne_nil pkg docs [] [] (by simp) (ty, v) (alGet_mem hv)
        rw [hv]
        simpa using hne

/-- Counterexample for C8 as stated: the document
`---\n"A": feat\n"A": fix!\n---\nboom` contains a matching declaration with
the `!` suffix (`"A": fix!`), yet the Breaking Changes bucket stays empty
and the rendered changelog has no Breaking Changes heading, because only the
document's first matching declaration (`"A": feat`) is processed. -/
theorem generateChangelog_breaking_placement_counterexample :
    parseChangelogLine (js "\"A\": fix!") = some (js "A", js "fix", true) ∧
    (collectBucketsAux (js "A") [js "---\n\"A\": feat\n\"A\": fix!\n---\nboom"] [] []).2
      = [] ∧
    occursIn (js "⚠️ Breaking Changes")
      (generateChangelog defaultChangesetTypes (js "A") (js "2.0.0")
        [js "---\n\"A\": feat\n\"A\": fix!\n---\nboom"] none (js "2026-10-11")) = false := by
  refine ⟨by decide, by decide, by decide⟩

/-- Witness for C8: a document whose first matching declaration carries `!`
does surface the Breaking Changes heading. -/
theorem generateChangelog_breaking_placement_witness :
    occursIn (js "⚠️ Breaking Changes")
      (generateChangelog defaultChangesetTypes (js "A") (js "2.0.0")
        [js "---\n\"A\": fix!\n---\nboom"] none (js "2026-10-11")) = true := by
  obtain ⟨p, q, heq, hbr, hty⟩ :=
    (generateChangelog_breaking_placement defaultChangesetTypes (js "A") (js "2.0.0")
      (js "2026-10-11") [js "---\n\"A\": fix!\n---\nboom"] none).2.2
  rw [heq]
  exact occursIn_append_r q (hbr (by decide))

theorem renderTypeBlocks_append (types : List ChangesetType)
    (G : List (JStr × List JStr)) (u v : List JStr) :
    renderTypeBlocks types G (u ++ v) =
      renderTypeBlocks types G u ++ renderTypeBlocks types G v := by
  induction u with
  | nil => rfl
  | cons hd rest ih =>
    rw [List.cons_append, renderTypeBlocks, renderTypeBlocks]
    by_cases hh : (alGet G hd).getD [] = []
    · rw [if_pos hh, if_pos hh, ih]
    · rw [if_neg hh, if_neg hh, ih]
      simp [List.append_assoc]

theorem keys_msgs_ne_nil (pkg : JStr) (docs : List JStr) {ty : JStr}
    (hty : ty ∈ (collectBucketsAux pkg docs [] []).1.map (fun e => e.1)) :
    (alGet (collectBucketsAux pkg docs [] []).1 ty).getD [] ≠ [] := by
  have hsome := alGet_isSome_of_mem_keys hty
  obtain ⟨v, hv⟩ := Option.isSome_iff_exists.mp hsome
  have hne := collect_groups_ne_nil pkg docs [] [] (by simp) (ty, v) (alGet_mem hv)
  rw [hv]
  simpa using hne

/-- Claim C9 (amended): the per-type blocks are rendered by iterating the
sorted type list, which is ordered by each type's position in the
configuration's type list (the stable sort keeps equal-keyed types — in
particular all unconfigured types, whose sort key is the sentinel 999 — in
first-encountered order, and any configured type's key is below the
sentinel when the configuration has at most 999 entries); each present
type's block heading is `### <emoji> <raw type name>` — the configured
emoji but the raw declared type string, not the configured display name
(see the counterexample) — and a present type with a strictly smaller key
is rendered before one with a larger key. -/
theorem generateChangelog_type_order
    (types : List ChangesetType) (pkg version date : JStr) (docs : List JStr)
    (deps : Option (List DependencyUpdate)) (hlen : types.length ≤ 999) :
    List.Pairwise (fun a b => sentinelIdx types a ≤ sentinelIdx types b)
      (insertionSortK (sentinelIdx types)
        ((collectBucketsAux pkg docs [] []).1.map (fun e => e.1))) ∧
    (∀ k : Nat,
      (insertionSortK (sentinelIdx types)
          ((collectBucketsAux pkg docs [] []).1.map (fun e => e.1))).filter
          (fun t => sentinelIdx types t = k) =
        ((collectBucketsAux pkg docs [] []).1.map (fun e => e.1)).filter
          (fun t => sentinelIdx types t = k)) ∧
    (∀ ty tc, tc ∈ types → tc.type = ty → sentinelIdx types ty < 999) ∧
    (∀ ty, ty ∈ (collectBucketsAux pkg docs [] []).1.map (fun e => e.1) →
      occursIn (js "### " ++ emojiOf types ty ++ js " " ++ ty ++ js "\n")
        (generateChangelog types pkg version docs deps date) = true) ∧
    (∀ ty1 ty2, ty1 ∈ (collectBucketsAux pkg docs [] []).1.map (fun e => e.1) →
      ty2 ∈ (collectBucketsAux pkg docs [] []).1.map (fun e => e.1) →
      sentinelIdx types ty1 < sentinelIdx types ty2 →
      ∃ p q,
        renderTypeBlocks types (collectBucketsAux pkg docs [] []).1
            (insertionSortK (sentinelIdx types)
              ((collectBucketsAux pkg docs [] []).1.map (fun e => e.1))) = p ++ q ∧
        occursIn (js "### " ++ emojiOf types ty1 ++ js " " ++ ty1 ++ js "\n") p = true ∧
        occursIn (js "### " ++ emojiOf types ty2 ++ js " " ++ ty2 ++ js "\n") q = true) := by
  refine ⟨pairwise_insertionSortK _ _, fun k => filter_insertionSortK _ _ k,
    fun ty tc htc hty => ?_, fun ty hty => ?_, fun ty1 ty2 h1 h2 hlt => ?_⟩
  · cases hf : types.findIdx? (fun t => t.type = ty) with
    | none =>
      exfalso
      have := List.findIdx?_eq_none_iff.mp hf tc htc
      simp [hty] at this
    | some i =>
      have hi := (List.findIdx?_eq_some_iff_findIdx_eq.mp hf).1
      simp [sentinelIdx, hf]
      omega
  · simp only [generateChangelog]
    have hB1 : (collectBucketsAux pkg docs [] []).1 ≠ [] := by
      intro hq
      rw [hq] at hty
      simp at hty
    rw [if_neg (fun hc => hB1 (List.length_eq_zero.mp hc.1))]
    apply occursIn_append_l
    exact renderTypeBlocks_heading
      ((perm_insertionSortK (sentinelIdx types) _).mem_iff.mpr hty)
      (keys_msgs_ne_nil pkg docs hty)
  · have hperm := perm_insertionSortK (sentinelIdx types)
      ((collectBucketsAux pkg docs [] []).1.map (fun e => e.1))
    have hs1 : ty1 ∈ insertionSortK (sentinelIdx types)
        ((collectBucketsAux pkg docs [] []).1.map (fun e => e.1)) :=
      hperm.mem_iff.mpr h1
    obtain ⟨u, w, hsplit⟩ := List.append_of_mem hs1
    have hpw := pairwise_insertionSortK (sentinelIdx types)
      ((collectBucketsAux pkg docs [] []).1.map (fun e => e.1))
    rw [hsplit] at hpw
    have hs2 : ty2 ∈ u ++ ty1 :: w := hsplit ▸ hperm.mem_iff.mpr h2
    have hw2 : ty2 ∈ w := by
      rcases List.mem_append.mp hs2 with hu | hc
      · exfalso
        have := (List.pairwise_append.mp hpw).2.2 ty2 hu ty1 (by simp)
        omega
      · rcases List.mem_cons.mp hc with he | hw
        · exfalso
          rw [he] at hlt
          omega
        · exact hw
    have hne1 := keys_msgs_ne_nil pkg docs h1
    refine ⟨renderTypeBlocks types (collectBucketsAux pkg docs [] []).1 u ++
        (js "### " ++ emojiOf types ty1 ++ js " " ++ ty1 ++ js "\n" ++
          renderMsgs ((alGet (collectBucketsAux pkg docs [] []).1 ty1).getD []) ++
          js "\n"),
      renderTypeBlocks types (collectBucketsAux pkg docs [] []).1 w, ?_, ?_, ?_⟩
    · rw [hsplit, renderTypeBlocks_append, renderTypeBlocks, if_neg hne1]
      simp [List.append_assoc]
    · apply occursIn_append_l
      rw [show js "### " ++ emojiOf types ty1 ++ js " " ++ ty1 ++ js "\n" ++
            renderMsgs ((alGet (collectBucketsAux pkg docs [] []).1 ty1).getD []) ++
            js "\n" =
          (js "### " ++ emojiOf types ty1 ++ js " " ++ ty1 ++ js "\n") ++
            (renderMsgs ((alGet (collectBucketsAux pkg docs [] []).1 ty1).getD []) ++
              js "\n") from by simp [List.append_assoc]]
      exact occursIn_starts _ _
    · exact renderTypeBlocks_heading hw2 (keys_msgs_ne_nil pkg docs h2)

/-- Counterexample for C9 as stated: with the default configuration, the
`feat` block's heading in the rendered changelog is `### 🚀 feat` — the
configured display heading "New Features" appears nowhere in the output. -/
theorem generateChangelog_type_order_counterexample :
    occursIn (js "### 🚀 feat")
      (generateChangelog defaultChangesetTypes (js "A") (js "1.1.0")
        [js "---\n\"A\": feat\n---\nHello"] none (js "2026-10-11")) = true ∧
    occursIn (js "New Features")
      (generateChangelog defaultChangesetTypes (js "A") (js "1.1.0")
        [js "---\n\"A\": feat\n---\nHello"] none (js "2026-10-11")) = false := by
  refine ⟨by decide, by decide⟩

/-- Witness for C9: the concrete heading occurrence obtained through the
amended theorem at the default configuration. -/
theorem generateChangelog_type_order_witness :
    occursIn (js "### 🚀 feat\n")
      (generateChangelog defaultChangesetTypes (js "A") (js "1.1.0")
        [js "---\n\"A\": feat\n---\nHello"] none (js "2026-10-12")) = true := by
  have h := (generateChangelog_type_order defaultChangesetTypes (js "A") (js "1.1.0")
    (js "2026-10-12") [js "---\n\"A\": feat\n---\nHello"] none (by decide)).2.2.2.1
    (js "feat") (by decide)
  rw [show js "### " ++ emojiOf defaultChangesetTypes (js "feat") ++ js " " ++ js "feat" ++
      js "\n" = js "### 🚀 feat\n" from by decide] at h
  exact h

theorem alHas_alSet_self {α : Type _} (m : List (JStr × α)) (k : JStr) (v : α) :
    alHas (alSet m k v) k = true := by
  simp [alHas, alGet_alSet_self]

theorem alHas_alSet_mono {α : Type _} {m : List (JStr × α)} {k n : JStr} (v : α)
    (h : alHas m n = true) : alHas (alSet m k v) n = true := by
  by_cases he : n = k
  · subst he
    exact alHas_alSet_self m n v
  · rw [alHas, alGet_alSet_ne v he]
    exact h

theorem not_mem_keys_of_not_alHas {α : Type _} {m : List (JStr × α)} {k : JStr}
    (h : alHas m k = false) : k ∉ m.map (fun e => e.1) := by
  intro hm
  rw [alHas, alGet_isSome_of_mem_keys hm] at h
  simp at h

theorem alGet_some_mem_keys {α : Type _} {m : List (JStr × α)} {k : JStr} {v : α}
    (h : alGet m k = some v) : k ∈ m.map (fun e => e.1) :=
  List.mem_map.mpr ⟨(k, v), alGet_mem h, rfl⟩

theorem keys_alSet_fresh {α : Type _} {m : List (JStr × α)} {k : JStr} (v : α)
    (h : alHas m k = false) :
    (alSet m k v).map (fun e => e.1) = m.map (fun e => e.1) ++ [k] := by
  induction m with
  | nil => simp [alSet]
  | cons e rest ih =>
    have he : ¬(e.1 = k) := by
      intro hq
      rw [alHas, alGet, if_pos hq] at h
      simp at h
    rw [alSet, if_neg he, List.map_cons, List.map_cons, List.cons_append,
      ih (by rw [alHas, alGet, if_neg he] at h; exact h)]

theorem filter_length_lt {l : List JStr} {p q : JStr → Bool}
    (himp : ∀ x, p x = true → q x = true) {x : JStr} (hx : x ∈ l)
    (hqx : q x = true) (hpx : p x = false) :
    (l.filter p).length < (l.filter q).length := by
  have hsub := List.monotone_filter_right l himp
  have hle := hsub.length_le
  rcases Nat.lt_or_ge (l.filter p).length (l.filter q).length with h | h
  · exact h
  · exfalso
    have heq : l.filter p = l.filter q := hsub.eq_of_length (le_antisymm hle h)
    have : x ∈ l.filter p := heq ▸ List.mem_filter.mpr ⟨hx, hqx⟩
    rw [List.mem_filter, hpx] at this
    simp at this

theorem processDependent_cases (iu : List (JStr × InitUpdate)) (g : DependencyGraph)
    (pol currentRT : JStr) (st : CState) (d : JStr) :
    processDependent iu g pol currentRT st d = .ok st ∨
    (∃ info nv,
      alGet g.packages d = some info ∧
      bumpVersion info.version .patch false = .ok nv ∧
      shouldUpdateDependency pol currentRT = true ∧
      alHas st.allUpdates d = false ∧
      processDependent iu g pol currentRT st d = .ok
        { st with
          allUpdates := alSet st.allUpdates d ⟨d, info.version, nv, js "patch", .dependency⟩,
          queue := st.queue ++ [(d, js "patch")] }) ∨
    (∃ e, processDependent iu g pol currentRT st d = .error e) := by
  unfold processDependent
  by_cases h1 : alHas iu d = true
  · rw [if_pos h1]
    exact Or.inl rfl
  · rw [if_neg h1]
    by_cases h2 : shouldUpdateDependency pol currentRT = false
    · rw [if_pos h2]
      exact Or.inl rfl
    · rw [if_neg h2]
      by_cases h3 : alHas st.allUpdates d = true
      · rw [if_pos h3]
        exact Or.inl rfl
      · rw [if_neg h3]
        split
        · exact Or.inl rfl
        · rename_i depInfo hg
          split
          · rename_i e hb
            exact Or.inr (Or.inr ⟨e, rfl⟩)
          · rename_i nv hb
            refine Or.inr (Or.inl ⟨depInfo, nv, hg, hb, ?_, ?_, rfl⟩)
            · cases hq : shouldUpdateDependency pol currentRT
              · exact absurd hq h2
              · rfl
            · cases hq : alHas st.allUpdates d
              · rfl
              · exact absurd hq h3

theorem missingCount_alSet_lt {g : DependencyGraph} {m : List (JStr × UpdateResult)}
    {d : JStr} (v : UpdateResult) {info : PackageInfo}
    (hg : alGet g.packages d = some info) (hfresh : alHas m d = false) :
    missingCount g (alSet m d v) < missingCount g m := by
  unfold missingCount
  refine filter_length_lt (fun x hx => ?_) (alGet_some_mem_keys hg) ?_ ?_
  · cases hs : alHas m x
    · rfl
    · rw [alHas_alSet_mono v hs] at hx
      simp at hx
  · rw [hfresh]
    rfl
  · rw [alHas_alSet_self]
    rfl

theorem processDependents_facts (iu : List (JStr × InitUpdate)) (g : DependencyGraph)
    (pol rt : JStr) :
    ∀ (deps : List JStr) (st st' : CState),
      processDependents iu g pol rt deps st = .ok st' →
      st'.processed = st.processed ∧
      (∀ k, alHas st.allUpdates k = true →
        alGet st'.allUpdates k = alGet st.allUpdates k) ∧
      (∀ k, alHas st.allUpdates k = true → alHas st'.allUpdates k = true) ∧
      st'.queue.length + missingCount g st'.allUpdates ≤
        st.queue.length + missingCount g st.allUpdates ∧
      ((st.allUpdates.map (fun e => e.1)).Nodup →
        (st'.allUpdates.map (fun e => e.1)).Nodup) ∧
      ((∀ k ∈ st.allUpdates.map (fun e => e.1), (alGet g.packages k).isSome = true) →
        (∀ k ∈ st'.allUpdates.map (fun e => e.1), (alGet g.packages k).isSome = true)) ∧
      (∀ el ∈ st'.allUpdates, el ∈ st.allUpdates ∨
        (el.2.reason = .dependency ∧ el.2.releaseType = js "patch" ∧
          el.2.packageName = el.1 ∧
          bumpVersion el.2.oldVersion .patch false = .ok el.2.newVersion ∧
          el.1 ∈ deps ∧ shouldUpdateDependency pol rt = true)) ∧
      (∀ qe ∈ st'.queue, qe ∈ st.queue ∨
        (qe.2 = js "patch" ∧ qe.1 ∈ deps ∧
          ∃ e, alGet st'.allUpdates qe.1 = some e ∧ e.releaseType = js "patch")) := by
  intro deps
  induction deps with
  | nil =>
    intro st st' hrun
    have hst : st = st' := by
      injection hrun
    subst hst
    exact ⟨rfl, fun k _ => rfl, fun k h => h, le_refl _, id, id,
      fun el hel => Or.inl hel, fun qe hq => Or.inl hq⟩
  | cons d ds ih =>
    intro st st' hrun
    rcases processDependent_cases iu g pol rt st d with hcase |
      ⟨info, nv, hg, hb, hsud, hfresh, hcase⟩ | ⟨e, hcase⟩
    · rw [processDependents, hcase] at hrun
      obtain ⟨ih1, ih2, ih3, ih4, ih5, ih6, ih7, ih8⟩ := ih st st' hrun
      exact ⟨ih1, ih2, ih3, ih4, ih5, ih6,
        fun el hel => (ih7 el hel).imp id
          (fun h => ⟨h.1, h.2.1, h.2.2.1, h.2.2.2.1,
            List.mem_cons_of_mem _ h.2.2.2.2.1, h.2.2.2.2.2⟩),
        fun qe hq => (ih8 qe hq).imp id
          (fun h => ⟨h.1, List.mem_cons_of_mem _ h.2.1, h.2.2⟩)⟩
    · rw [processDependents, hcase] at hrun
      obtain ⟨ih1, ih2, ih3, ih4, ih5, ih6, ih7, ih8⟩ := ih _ st' hrun
      have hmidget : ∀ k, alHas st.allUpdates k = true → k ≠ d := by
        intro k hk q
        rw [q, hfresh] at hk
        exact Bool.noConfusion hk
      refine ⟨ih1, ?_, ?_, ?_, ?_, ?_, ?_, ?_⟩
      · intro k hk
        rw [ih2 k (alHas_alSet_mono _ hk), alGet_alSet_ne _ (hmidget k hk)]
      · intro k hk
        exact ih3 k (alHas_alSet_mono _ hk)
      · have hlt := missingCount_alSet_lt
          (⟨d, info.version, nv, js "patch", .dependency⟩ : UpdateResult) hg hfresh
        have hq : (st.queue ++ [(d, js "patch")]).length = st.queue.length + 1 := by
          simp
        have := ih4
        simp only [hq] at this
        omega
      · intro hnd
        apply ih5
        show (alSet st.allUpdates d _ |>.map (fun e => e.1)).Nodup
        rw [keys_alSet_fresh _ hfresh]
        simp [List.nodup_append, hnd, not_mem_keys_of_not_alHas hfresh]
      · intro hkg
        apply ih6
        intro k hk
        rw [show ({ st with
            allUpdates := alSet st.allUpdates d ⟨d, info.version, nv, js "patch", .dependency⟩,
            queue := st.queue ++ [(d, js "patch")] } : CState).allUpdates =
          alSet st.allUpdates d ⟨d, info.version, nv, js "patch", .dependency⟩ from rfl,
          keys_alSet_fresh _ hfresh] at hk
        rcases List.mem_append.mp hk with h' | h'
        · exact hkg k h'
        · rw [List.mem_singleton.mp h', hg]
          rfl
      · intro el hel
        rcases ih7 el hel with hmid | hdep
        · rcases mem_alSet hmid with he | he
          · refine Or.inr ?_
            rw [he]
            exact ⟨rfl, rfl, rfl, hb, by simp, hsud⟩
          · exact Or.inl he
        · exact Or.inr ⟨hdep.1, hdep.2.1, hdep.2.2.1, hdep.2.2.2.1,
            List.mem_cons_of_mem _ hdep.2.2.2.2.1, hdep.2.2.2.2.2⟩
      · intro qe hq
        rcases ih8 qe hq with hmid | hnew
        · rcases List.mem_append.mp hmid with h' | h'
          · exact Or.inl h'
          · have he : qe = (d, js "patch") := List.mem_singleton.mp h'
            refine Or.inr ⟨by rw [he], by rw [he]; simp, ?_⟩
            refine ⟨⟨d, info.version, nv, js "patch", .dependency⟩, ?_, rfl⟩
            rw [he]
            show alGet st'.allUpdates d = _
            rw [ih2 d (by rw [show ({ st with
                allUpdates := alSet st.allUpdates d
                  ⟨d, info.version, nv, js "patch", .dependency⟩,
                queue := st.queue ++ [(d, js "patch")] } : CState).allUpdates =
              alSet st.allUpdates d ⟨d, info.version, nv, js "patch", .dependency⟩ from rfl,
              alHas_alSet_self])]
            exact alGet_alSet_self _ _ _
        · exact Or.inr ⟨hnew.1, List.mem_cons_of_mem _ hnew.2.1, hnew.2.2⟩
    · rw [processDependents, hcase] at hrun
      exact Except.noConfusion hrun

theorem cascadeLoop_nil (iu : List (JStr × InitUpdate)) (g : DependencyGraph)
    (pol : JStr) (fuel : Nat) (st : CState) (hq : st.queue = []) :
    cascadeLoop iu g pol fuel st = some (.ok st) := by
  rw [cascadeLoop, hq]

theorem cascadeLoop_cons (iu : List (JStr × InitUpdate)) (g : DependencyGraph)
    (pol : JStr) (fuel' : Nat) (st : CState) (current : JStr × JStr)
    (rest : List (JStr × JStr)) (hq : st.queue = current :: rest) :
    cascadeLoop iu g pol (fuel' + 1) st =
      if current.1 ∈ st.processed then
        cascadeLoop iu g pol fuel' { st with queue := rest }
      else
        match alGet g.dependents current.1 with
        | none => cascadeLoop iu g pol fuel'
            { st with queue := rest, processed := st.processed ++ [current.1] }
        | some deps =>
          match processDependents iu g pol current.2 deps
              { st with queue := rest, processed := st.processed ++ [current.1] } with
          | .error e => some (.error e)
          | .ok st2 => cascadeLoop iu g pol fuel' st2 := by
  rw [cascadeLoop, hq]

theorem cascadeLoop_total (iu : List (JStr × InitUpdate)) (g : DependencyGraph)
    (pol : JStr) :
    ∀ (fuel : Nat) (st : CState), cascadeMeasure g st ≤ fuel →
      ∃ r, cascadeLoop iu g pol fuel st = some r := by
  intro fuel
  induction fuel with
  | zero =>
    intro st hm
    have hq : st.queue = [] := by
      unfold cascadeMeasure at hm
      exact List.length_eq_zero.mp (by omega)
    exact ⟨.ok st, cascadeLoop_nil iu g pol 0 st hq⟩
  | succ fuel' ih =>
    intro st hm
    cases hq : st.queue with
    | nil => exact ⟨.ok st, cascadeLoop_nil iu g pol _ st hq⟩
    | cons current rest =>
      rw [cascadeLoop_cons iu g pol fuel' st current rest hq]
      have hmq : st.queue.length = rest.length + 1 := by rw [hq]; simp
      unfold cascadeMeasure at hm
      by_cases hmem : current.1 ∈ st.processed
      · rw [if_pos hmem]
        apply ih
        show rest.length + missingCount g st.allUpdates ≤ fuel'
        omega
      · rw [if_neg hmem]
        cases hdeps : alGet g.dependents current.1 with
        | none =>
          apply ih
          show rest.length + missingCount g st.allUpdates ≤ fuel'
          omega
        | some deps =>
          show ∃ r, (match processDependents iu g pol current.2 deps
              { st with queue := rest, processed := st.processed ++ [current.1] } with
            | .error e => some (.error e)
            | .ok st2 => cascadeLoop iu g pol fuel' st2) = some r
          cases hfold : processDependents iu g pol current.2 deps
              { st with queue := rest, processed := st.processed ++ [current.1] } with
          | error e => exact ⟨.error e, rfl⟩
          | ok st2 =>
            obtain ⟨-, -, -, h4, -, -, -, -⟩ :=
              processDependents_facts iu g pol current.2 deps _ st2 hfold
            apply ih
            have h4' : st2.queue.length + missingCount g st2.allUpdates ≤
                rest.length + missingCount g st.allUpdates := h4
            show st2.queue.length + missingCount g st2.allUpdates ≤ fuel'
            omega

theorem seedInitial_nil (g : DependencyGraph) (st : CState) :
    seedInitial g [] st = st := rfl

theorem seedInitial_cons (g : DependencyGraph) (p : JStr) (u : InitUpdate)
    (rest : List (JStr × InitUpdate)) (st : CState) :
    seedInitial g ((p, u) :: rest) st =
      match alGet g.packages p with
      | none => seedInitial g rest st
      | some info => seedInitial g rest
          { st with
            allUpdates := alSet st.allUpdates p
              ⟨p, info.version, u.version, u.releaseType, .changeset⟩,
            queue := st.queue ++ [(p, u.releaseType)] } := rfl

theorem mem_keys_alSet {α : Type _} (m : List (JStr × α)) (k : JStr) (v : α)
    (x : JStr) :
    x ∈ (alSet m k v).map (fun e => e.1) → x = k ∨ x ∈ m.map (fun e => e.1) := by
  induction m with
  | nil =>
    intro h
    rw [alSet] at h
    exact Or.inl (List.mem_singleton.mp h)
  | cons e rest ih =>
    intro h
    rw [alSet] at h
    by_cases he : e.1 = k
    · rw [if_pos he] at h
      rw [List.map_cons] at h
      rcases List.mem_cons.mp h with h | h
      · exact Or.inl h
      · rw [List.map_cons]
        exact Or.inr (List.mem_cons_of_mem _ h)
    · rw [if_neg he] at h
      rw [List.map_cons] at h
      rw [List.map_cons]
      rcases List.mem_cons.mp h with h | h
      · exact Or.inr (h ▸ List.mem_cons_self _ _)
      · rcases ih h with hk | hk
        · exact Or.inl hk
        · exact Or.inr (List.mem_cons_of_mem _ hk)

theorem keys_nodup_alSet {α : Type _} (m : List (JStr × α)) (k : JStr) (v : α) :
    (m.map (fun e => e.1)).Nodup → ((alSet m k v).map (fun e => e.1)).Nodup := by
  induction m with
  | nil =>
    intro _
    rw [alSet]
    exact List.nodup_singleton _
  | cons e rest ih =>
    intro h
    rw [alSet]
    rw [List.map_cons, List.nodup_cons] at h
    by_cases he : e.1 = k
    · rw [if_pos he]
      rw [List.map_cons, List.nodup_cons]
      exact ⟨by rw [← he]; exact h.1, h.2⟩
    · rw [if_neg he]
      rw [List.map_cons, List.nodup_cons]
      refine ⟨?_, ih h.2⟩
      intro hmem
      rcases mem_keys_alSet rest k v e.1 hmem with hk | hk
      · exact he hk
      · exact h.1 hk

theorem alHas_of_alGet {α : Type _} {m : List (JStr × α)} {k : JStr} {v : α}
    (h : alGet m k = some v) : alHas m k = true := by
  unfold alHas
  rw [h]
  rfl

theorem missingCount_le (g : DependencyGraph) (m : List (JStr × UpdateResult)) :
    missingCount g m ≤ (g.packages.map (fun e => e.1)).length := by
  unfold missingCount
  exact List.length_filter_le _ _

theorem seed_processed (g : DependencyGraph) :
    ∀ (iu : List (JStr × InitUpdate)) (st : CState),
      (seedInitial g iu st).processed = st.processed := by
  intro iu
  induction iu with
  | nil =>
    intro st
    rfl
  | cons e rest ih =>
    intro st
    obtain ⟨p, u⟩ := e
    rw [seedInitial_cons]
    cases hg : alGet g.packages p with
    | none => exact ih st
    | some info =>
      show (seedInitial g rest _).processed = st.processed
      exact ih _

theorem seed_nodupKeys (g : DependencyGraph) :
    ∀ (iu : List (JStr × InitUpdate)) (st : CState),
      (st.allUpdates.map (fun e => e.1)).Nodup →
      ((seedInitial g iu st).allUpdates.map (fun e => e.1)).Nodup := by
  intro iu
  induction iu with
  | nil =>
    intro st h
    exact h
  | cons e rest ih
  =>
    intro st h
    obtain ⟨p, u⟩ := e
    rw [seedInitial_cons]
    cases hg : alGet g.packages p with
    | none => exact ih st h
    | some info =>
      apply ih
      exact keys_nodup_alSet _ _ _ h

theorem seed_keysInGraph (g : DependencyGraph) :
    ∀ (iu : List (JStr × InitUpdate)) (st : CState),
      (∀ k ∈ st.allUpdates.map (fun e => e.1), (alGet g.packages k).isSome = true) →
      ∀ k ∈ (seedInitial g iu st).allUpdates.map (fun e => e.1),
        (alGet g.packages k).isSome = true := by
  intro iu
  induction iu with
  | nil =>
    intro st h
    exact h
  | cons e rest ih =>
    intro st h
    obtain ⟨p, u⟩ := e
    rw [seedInitial_cons]
    cases hg : alGet g.packages p with
    | none => exact ih st h
    | some info =>
      apply ih
      intro k hk
      rcases mem_keys_alSet _ _ _ _ hk with h' | h'
      · rw [h', hg]
        rfl
      · exact h k h'

theorem seed_entries_changeset (g : DependencyGraph) :
    ∀ (iu : List (JStr × InitUpdate)) (st : CState),
      ∀ el ∈ (seedInitial g iu st).allUpdates,
        el ∈ st.allUpdates ∨ el.2.reason = .changeset := by
  intro iu
  induction iu with
  | nil =>
    intro st el hel
    exact Or.inl hel
  | cons e rest ih =>
    intro st el hel
    obtain ⟨p, u⟩ := e
    rw [seedInitial_cons] at hel
    cases hg : alGet g.packages p with
    | none =>
      rw [hg] at hel
      exact ih st el hel
    | some info =>
      rw [hg] at hel
      rcases ih _ el hel with h' | h'
      · rcases mem_alSet h' with h'' | h''
        · refine Or.inr ?_
          rw [h'']
        · exact Or.inl h''
      · exact Or.inr h'

theorem seed_get_ne (g : DependencyGraph) :
    ∀ (iu : List (JStr × InitUpdate)) (st : CState) (p : JStr),
      p ∉ iu.map (fun e => e.1) →
      alGet (seedInitial g iu st).allUpdates p = alGet st.allUpdates p := by
  intro iu
  induction iu with
  | nil =>
    intro st p _
    rfl
  | cons e rest ih =>
    intro st p hp
    obtain ⟨q, u⟩ := e
    simp only [List.map_cons, List.mem_cons, not_or] at hp
    rw [seedInitial_cons]
    cases hg : alGet g.packages q with
    | none => exact ih st p hp.2
    | some info =>
      rw [ih _ p hp.2]
      exact alGet_alSet_ne _ hp.1

theorem seed_binding (g : DependencyGraph) :
    ∀ (iu : List (JStr × InitUpdate)) (st : CState),
      (iu.map (fun e => e.1)).Nodup →
      ∀ (p : JStr) (u : InitUpdate) (info : PackageInfo), (p, u) ∈ iu →
        alGet g.packages p = some info →
        alGet (seedInitial g iu st).allUpdates p =
          some ⟨p, info.version, u.version, u.releaseType, .changeset⟩ := by
  intro iu
  induction iu with
  | nil =>
    intro st _ p u info hmem _
    exact absurd hmem (List.not_mem_nil _)
  | cons e rest ih =>
    intro st hnd p u info hmem hg
    obtain ⟨q, w⟩ := e
    simp only [List.map_cons, List.nodup_cons] at hnd
    rcases List.mem_cons.mp hmem with heq | hmem'
    · have hpq : p = q := congrArg Prod.fst heq
      have huw : u = w := congrArg Prod.snd heq
      subst hpq
      subst huw
      rw [seedInitial_cons, hg]
      rw [seed_get_ne g rest _ p hnd.1]
      exact alGet_alSet_self _ _ _
    · rw [seedInitial_cons]
      cases hgq : alGet g.packages q with
      | none => exact ih st hnd.2 p u info hmem' hg
      | some infoq => exact ih _ hnd.2 p u info hmem' hg

theorem seed_queueInv (g : DependencyGraph) :
    ∀ (iu : List (JStr × InitUpdate)) (st : CState),
      (iu.map (fun e => e.1)).Nodup →
      (∀ e ∈ iu, alHas st.allUpdates e.1 = false) →
      QueueInv st → QueueInv (seedInitial g iu st) := by
  intro iu
  induction iu with
  | nil =>
    intro st _ _ hq
    exact hq
  | cons e rest ih =>
    intro st hnd hfresh hq
    obtain ⟨p, u⟩ := e
    simp only [List.map_cons, List.nodup_cons] at hnd
    rw [seedInitial_cons]
    cases hg : alGet g.packages p with
    | none =>
      exact ih st hnd.2 (fun e he => hfresh e (List.mem_cons_of_mem _ he)) hq
    | some info =>
      apply ih _ hnd.2
      · intro e he
        have hne : e.1 ≠ p := by
          intro hcontra
          exact hnd.1 (hcontra ▸ (List.mem_map.mpr ⟨e, he, rfl⟩))
        show alHas (alSet st.allUpdates p _) e.1 = false
        unfold alHas
        rw [alGet_alSet_ne _ hne]
        exact hfresh e (List.mem_cons_of_mem _ he)
      · intro qe hqe
        rcases List.mem_append.mp hqe with hold | hnew
        · obtain ⟨en, hen, hrt⟩ := hq qe hold
          have hne : qe.1 ≠ p := by
            intro hcontra
            have : alHas st.allUpdates p = true := alHas_of_alGet (hcontra ▸ hen)
            rw [hfresh (p, u) (List.mem_cons_self _ _)] at this
            exact Bool.noConfusion this
          refine ⟨en, ?_, hrt⟩
          show alGet (alSet st.allUpdates p _) qe.1 = some en
          rw [alGet_alSet_ne _ hne]
          exact hen
        · have hqe' : qe = (p, u.releaseType) := List.mem_singleton.mp hnew
          refine ⟨⟨p, info.version, u.version, u.releaseType, .changeset⟩, ?_, ?_⟩
          · show alGet (alSet st.allUpdates p _) qe.1 = _
            rw [hqe']
            exact alGet_alSet_self _ _ _
          · rw [hqe']

theorem seed_unknown_id (g : DependencyGraph) :
    ∀ (iu : List (JStr × InitUpdate)) (st : CState),
      (∀ e ∈ iu, alGet g.packages e.1 = none) → seedInitial g iu st = st := by
  intro iu
  induction iu with
  | nil =>
    intro st _
    rfl
  | cons e rest ih =>
    intro st h
    obtain ⟨p, u⟩ := e
    rw [seedInitial_cons]
    have hp : alGet g.packages p = none := h (p, u) (List.mem_cons_self _ _)
    rw [hp]
    exact ih st (fun e he => h e (List.mem_cons_of_mem _ he))

theorem cascadeLoop_facts (iu : List (JStr × InitUpdate)) (g : DependencyGraph)
    (pol : JStr) :
    ∀ (fuel : Nat) (st st' : CState),
      cascadeLoop iu g pol fuel st = some (.ok st') →
      (∀ k, alHas st.allUpdates k = true →
        alGet st'.allUpdates k = alGet st.allUpdates k) ∧
      ((st.allUpdates.map (fun e => e.1)).Nodup →
        (st'.allUpdates.map (fun e => e.1)).Nodup) ∧
      ((∀ k ∈ st.allUpdates.map (fun e => e.1), (alGet g.packages k).isSome = true) →
        ∀ k ∈ st'.allUpdates.map (fun e => e.1), (alGet g.packages k).isSome = true) ∧
      (st.processed.Nodup → st'.processed.Nodup) ∧
      (QueueInv st → ProvInv g pol st → ProvInv g pol st') := by
  intro fuel
  induction fuel with
  | zero =>
    intro st st' h
    cases hq : st.queue with
    | nil =>
      rw [cascadeLoop_nil iu g pol 0 st hq] at h
      have hst : st = st' := Except.ok.inj (Option.some.inj h)
      subst hst
      exact ⟨fun k _ => rfl, id, fun hk => hk, id, fun _ hp => hp⟩
    | cons current rest =>
      have hz : cascadeLoop iu g pol 0 st = none := by
        rw [cascadeLoop, hq]
      rw [hz] at h
      exact Option.noConfusion h
  | succ fuel' ih =>
    intro st st' h
    cases hq : st.queue with
    | nil =>
      rw [cascadeLoop_nil iu g pol _ st hq] at h
      have hst : st = st' := Except.ok.inj (Option.some.inj h)
      subst hst
      exact ⟨fun k _ => rfl, id, fun hk => hk, id, fun _ hp => hp⟩
    | cons current rest =>
      rw [cascadeLoop_cons iu g pol fuel' st current rest hq] at h
      by_cases hmem : current.1 ∈ st.processed
      · rw [if_pos hmem] at h
        obtain ⟨lf1, lf2, lf3, lf4, lf5⟩ := ih { st with queue := rest } st' h
        refine ⟨lf1, lf2, lf3, lf4, fun hqi hpi => lf5 ?_ hpi⟩
        intro qe hqe
        exact hqi qe (hq ▸ List.mem_cons_of_mem _ hqe)
      · rw [if_neg hmem] at h
        have hnd1 : st.processed.Nodup →
            (st.processed ++ [current.1]).Nodup := by
          intro hnd
          simp [List.nodup_append, hnd, hmem]
        cases hdeps : alGet g.dependents current.1 with
        | none =>
          rw [hdeps] at h
          replace h : cascadeLoop iu g pol fuel'
              { st with queue := rest, processed := st.processed ++ [current.1] } =
              some (.ok st') := h
          obtain ⟨lf1, lf2, lf3, lf4, lf5⟩ := ih _ st' h
          refine ⟨lf1, lf2, lf3, fun hnd => lf4 (hnd1 hnd), fun hqi hpi => lf5 ?_ hpi⟩
          intro qe hqe
          exact hqi qe (hq ▸ List.mem_cons_of_mem _ hqe)
        | some deps =>
          rw [hdeps] at h
          replace h : (match processDependents iu g pol current.2 deps
              { st with queue := rest, processed := st.processed ++ [current.1] } with
            | .error e => some (.error e)
            | .ok st2 => cascadeLoop iu g pol fuel' st2) = some (.ok st') := h
          cases hfold : processDependents iu g pol current.2 deps
              { st with queue := rest, processed := st.processed ++ [current.1] } with
          | error e =>
            rw [hfold] at h
            exact absurd (Option.some.inj h) (fun hc => Except.noConfusion hc)
          | ok st2 =>
            rw [hfold] at h
            obtain ⟨pf1, pf2, pf3, pf4, pf5, pf6, pf7, pf8⟩ :=
              processDependents_facts iu g pol current.2 deps _ st2 hfold
            obtain ⟨lf1, lf2, lf3, lf4, lf5⟩ := ih st2 st' h
            refine ⟨?_, ?_, ?_, ?_, ?_⟩
            · intro k hk
              rw [lf1 k (pf3 k hk), pf2 k hk]
            · intro hnd
              exact lf2 (pf5 hnd)
            · intro hkg
              exact lf3 (pf6 hkg)
            · intro hnd
              apply lf4
              rw [pf1]
              exact hnd1 hnd
            · intro hqi hpi
              obtain ⟨ec, hec, hecrt⟩ :=
                hqi current (hq ▸ List.mem_cons_self _ _)
              have hec2 : alGet st2.allUpdates current.1 = some ec := by
                rw [pf2 current.1 (alHas_of_alGet hec)]
                exact hec
              apply lf5
              · intro qe hqe
                rcases pf8 qe hqe with hold | hnew
                · obtain ⟨e, he, hrt⟩ :=
                    hqi qe (hq ▸ List.mem_cons_of_mem _ hold)
                  refine ⟨e, ?_, hrt⟩
                  rw [pf2 qe.1 (alHas_of_alGet he)]
                  exact he
                · obtain ⟨hrt2, _, e, hge, hrte⟩ := hnew
                  exact ⟨e, hge, by rw [hrte, hrt2]⟩
              · intro el hel hreas
                rcases pf7 el hel with hold | hnew
                · obtain ⟨hpt, hbv, pn, pe, deps', h1, h2, h3, h4⟩ :=
                    hpi el hold hreas
                  refine ⟨hpt, hbv, pn, pe, deps', ?_, h2, h3, h4⟩
                  rw [pf2 pn (alHas_of_alGet h1)]
                  exact h1
                · obtain ⟨_, hpt, _, hbv, hmemdeps, hsud⟩ := hnew
                  refine ⟨hpt, hbv, current.1, ec, deps, hec2, hdeps, hmemdeps, ?_⟩
                  rw [hecrt]
                  exact hsud

theorem cascade_run {iu : List (JStr × InitUpdate)} {g : DependencyGraph}
    {pol : JStr} {m : List (JStr × UpdateResult)}
    (h : cascadeVersionUpdates iu g pol = some (.ok m)) :
    ∃ st', cascadeLoop iu g pol
        ((seedInitial g iu ⟨[], [], []⟩).queue.length +
          (g.packages.map (fun e => e.1)).length)
        (seedInitial g iu ⟨[], [], []⟩) = some (.ok st') ∧
      st'.allUpdates = m := by
  replace h : (cascadeLoop iu g pol
      ((seedInitial g iu ⟨[], [], []⟩).queue.length +
        (g.packages.map (fun e => e.1)).length)
      (seedInitial g iu ⟨[], [], []⟩)).map
      (fun r => r.map (fun st => st.allUpdates)) = some (.ok m) := h
  cases hres : cascadeLoop iu g pol
      ((seedInitial g iu ⟨[], [], []⟩).queue.length +
        (g.packages.map (fun e => e.1)).length)
      (seedInitial g iu ⟨[], [], []⟩) with
  | none =>
    rw [hres] at h
    exact Option.noConfusion h
  | some r =>
    rw [hres] at h
    have h2 := Option.some.inj h
    cases r with
    | error e => exact Except.noConfusion h2
    | ok st' => exact ⟨st', rfl, Except.ok.inj h2⟩

/-- Claim C2: For every dependency graph, initial update map and update
policy, `cascadeVersionUpdates` terminates — the fuel-indexed loop never
runs out (`some r`), even on cyclic internal dependency graphs; the
processed-set guard keeps the processed list duplicate-free, so each
package's outgoing dependents are expanded at most once; the result map's
keys are duplicate-free, so each package appears at most once in it; and
concretely, in the diamond graph (B and C depend on A, D depends on both)
seeded only at A under policy `patch`, D appears exactly once in the
result, while the cyclic graph A → B → C → A seeded at A also terminates
with each of A, B, C appearing exactly once. -/
theorem cascade_terminates :
    (∀ (iu : List (JStr × InitUpdate)) (g : DependencyGraph) (pol : JStr),
      ∃ r, cascadeVersionUpdates iu g pol = some r) ∧
    (∀ (iu : List (JStr × InitUpdate)) (g : DependencyGraph) (pol : JStr)
      (fuel : Nat) (st st' : CState),
      cascadeLoop iu g pol fuel st = some (.ok st') → st.processed.Nodup →
      st'.processed.Nodup) ∧
    (∀ (iu : List (JStr × InitUpdate)) (g : DependencyGraph) (pol : JStr)
      (m : List (JStr × UpdateResult)),
      cascadeVersionUpdates iu g pol = some (.ok m) →
      (m.map (fun e => e.1)).Nodup) ∧
    (cascadeVersionUpdates seedAOnly diamondGraph (js "patch") =
        some (.ok diamondResult) ∧
      (diamondResult.map (fun e => e.1)).count (js "D") = 1) ∧
    (cascadeVersionUpdates seedAOnly cycleGraph (js "patch") =
        some (.ok cycleResult) ∧
      (cycleResult.map (fun e => e.1)).count (js "A") = 1 ∧
      (cycleResult.map (fun e => e.1)).count (js "B") = 1 ∧
      (cycleResult.map (fun e => e.1)).count (js "C") = 1) := by
  refine ⟨?_, ?_, ?_, ⟨by rfl, by decide⟩, ⟨by rfl, by decide, by decide, by decide⟩⟩
  · intro iu g pol
    have hfuel : cascadeMeasure g (seedInitial g iu ⟨[], [], []⟩) ≤
        (seedInitial g iu ⟨[], [], []⟩).queue.length +
          (g.packages.map (fun e => e.1)).length := by
      unfold cascadeMeasure
      exact Nat.add_le_add_left (missingCount_le g _) _
    obtain ⟨r, hr⟩ := cascadeLoop_total iu g pol _ _ hfuel
    refine ⟨r.map (fun st => st.allUpdates), ?_⟩
    show (cascadeLoop iu g pol
        ((seedInitial g iu ⟨[], [], []⟩).queue.length +
          (g.packages.map (fun e => e.1)).length)
        (seedInitial g iu ⟨[], [], []⟩)).map
        (fun rr => rr.map (fun st => st.allUpdates)) = _
    rw [hr]
    rfl
  · intro iu g pol fuel st st' hrun hnd
    exact (cascadeLoop_facts iu g pol fuel st st' hrun).2.2.2.1 hnd
  · intro iu g pol m h
    obtain ⟨st', hrun, hm⟩ := cascade_run h
    have hnd0 : ((seedInitial g iu ⟨[], [], []⟩).allUpdates.map
        (fun e => e.1)).Nodup :=
      seed_nodupKeys g iu ⟨[], [], []⟩ List.nodup_nil
    have := (cascadeLoop_facts iu g pol _ _ _ hrun).2.1 hnd0
    rw [hm] at this
    exact this

theorem cascade_terminates_witness :
    (∃ r, cascadeVersionUpdates seedAOnly cycleGraph (js "patch") = some r) ∧
    (diamondResult.map (fun e => e.1)).Nodup ∧
    (⟨diamondResult, [js "A", js "B", js "C", js "D"], []⟩ : CState).processed.Nodup := by
  refine ⟨cascade_terminates.1 seedAOnly cycleGraph (js "patch"), ?_, ?_⟩
  · exact cascade_terminates.2.2.1 seedAOnly diamondGraph (js "patch")
      diamondResult (by rfl)
  · exact cascade_terminates.2.1 seedAOnly diamondGraph (js "patch") 5
      (seedInitial diamondGraph seedAOnly ⟨[], [], []⟩)
      ⟨diamondResult, [js "A", js "B", js "C", js "D"], []⟩ (by rfl) (by decide)

/-- Claim C3: In the result of `cascadeVersionUpdates` (for duplicate-free
changeset keys, as a JavaScript `Map` guarantees): every package seeded by
a changeset that exists in the graph keeps its changeset-derived version,
release type and reason `changeset` in the result — a cascade never
overrides it; every dependency-reason entry received exactly a patch bump
of its current version (reason `dependency`), and was added only because
some package in the result map lists it as a dependent and the update
policy admits that package's release type; and the policy gate
`shouldUpdateDependency` satisfies: `none` never cascades, `patch`
cascades on any release type, `minor` exactly on `minor` or `major`, and
`major` exactly on `major`. -/
theorem cascade_policy_semantics :
    (∀ (iu : List (JStr × InitUpdate)) (g : DependencyGraph) (pol : JStr)
      (m : List (JStr × UpdateResult)),
      cascadeVersionUpdates iu g pol = some (.ok m) →
      (iu.map (fun e => e.1)).Nodup →
      (∀ (p : JStr) (u : InitUpdate) (info : PackageInfo),
        (p, u) ∈ iu → alGet g.packages p = some info →
        alGet m p = some ⟨p, info.version, u.version, u.releaseType, .changeset⟩) ∧
      (∀ el ∈ m, el.2.reason = .dependency →
        el.2.releaseType = js "patch" ∧
        bumpVersion el.2.oldVersion .patch false = .ok el.2.newVersion ∧
        ∃ pn pe deps, alGet m pn = some pe ∧
          alGet g.dependents pn = some deps ∧ el.1 ∈ deps ∧
          shouldUpdateDependency pol pe.releaseType = true)) ∧
    (∀ rt, shouldUpdateDependency (js "none") rt = false) ∧
    (∀ rt, shouldUpdateDependency (js "patch") rt = true) ∧
    (∀ rt, shouldUpdateDependency (js "minor") rt = true ↔
      rt = js "minor" ∨ rt = js "major") ∧
    (∀ rt, shouldUpdateDependency (js "major") rt = true ↔ rt = js "major") := by
  refine ⟨?_, ?_, ?_, ?_, ?_⟩
  · intro iu g pol m h hnd
    obtain ⟨st', hrun, hm⟩ := cascade_run h
    subst hm
    obtain ⟨lf1, lf2, lf3, lf4, lf5⟩ := cascadeLoop_facts iu g pol _ _ _ hrun
    constructor
    · intro p u info hmem hg
      have hbind := seed_binding g iu ⟨[], [], []⟩ hnd p u info hmem hg
      rw [lf1 p (alHas_of_alGet hbind)]
      exact hbind
    · have hqi : QueueInv (seedInitial g iu ⟨[], [], []⟩) := by
        apply seed_queueInv g iu ⟨[], [], []⟩ hnd
        · intro e _
          rfl
        · intro qe hqe
          exact absurd hqe (List.not_mem_nil _)
      have hpi : ProvInv g pol (seedInitial g iu ⟨[], [], []⟩) := by
        intro el hel hreas
        rcases seed_entries_changeset g iu ⟨[], [], []⟩ el hel with h' | h'
        · exact absurd h' (List.not_mem_nil _)
        · rw [h'] at hreas
          exact Reason.noConfusion hreas
      have hfin := lf5 hqi hpi
      intro el hel hreas
      exact hfin el hel hreas
  · intro rt
    simp [shouldUpdateDependency, js]
  · intro rt
    simp [shouldUpdateDependency, js]
  · intro rt
    simp [shouldUpdateDependency, js]
  · intro rt
    simp [shouldUpdateDependency, js]

theorem cascade_policy_semantics_witness :
    alGet diamondResult (js "A") =
      some ⟨js "A", js "1.0.0", js "1.0.1", js "patch", .changeset⟩ ∧
    ∃ pn pe deps, alGet diamondResult pn = some pe ∧
      alGet diamondGraph.dependents pn = some deps ∧ js "D" ∈ deps ∧
      shouldUpdateDependency (js "patch") pe.releaseType = true := by
  have h := cascade_policy_semantics.1 seedAOnly diamondGraph (js "patch")
      diamondResult (by rfl) (by decide)
  refine ⟨h.1 (js "A") ⟨js "1.0.1", js "patch"⟩ (mkPkg "A").2 (by decide) (by rfl), ?_⟩
  have h2 := h.2 (js "D", ⟨js "D", js "1.0.0", js "1.0.1", js "patch", .dependency⟩)
      (by decide) (by rfl)
  exact h2.2.2

/-- Claim C10: A package named in the initial changeset-driven update map
but absent from the graph's package map is skipped silently by
`cascadeVersionUpdates`: it never appears in the returned map (every
result key is a graph package), no error is raised, and when every seed
is unknown the cascade returns an empty map rather than failing. -/
theorem cascade_unknown_seed_silent :
    (∀ (iu : List (JStr × InitUpdate)) (g : DependencyGraph) (pol : JStr)
      (m : List (JStr × UpdateResult)) (p : JStr),
      cascadeVersionUpdates iu g pol = some (.ok m) →
      alGet g.packages p = none → alGet m p = none) ∧
    (∀ (iu : List (JStr × InitUpdate)) (g : DependencyGraph) (pol : JStr),
      (∀ e ∈ iu, alGet g.packages e.1 = none) →
      cascadeVersionUpdates iu g pol = some (.ok [])) := by
  constructor
  · intro iu g pol m p h hp
    obtain ⟨st', hrun, hm⟩ := cascade_run h
    subst hm
    have hkg0 : ∀ k ∈ (seedInitial g iu ⟨[], [], []⟩).allUpdates.map
        (fun e => e.1), (alGet g.packages k).isSome = true :=
      seed_keysInGraph g iu ⟨[], [], []⟩
        (fun k hk => absurd hk (List.not_mem_nil _))
    have hkg := (cascadeLoop_facts iu g pol _ _ _ hrun).2.2.1 hkg0
    cases hget : alGet st'.allUpdates p with
    | none => rfl
    | some v =>
      have hmemk : p ∈ st'.allUpdates.map (fun e => e.1) :=
        alGet_some_mem_keys hget
      have hcontra := hkg p hmemk
      rw [hp] at hcontra
      exact Bool.noConfusion hcontra
  · intro iu g pol hall
    have hid : seedInitial g iu ⟨[], [], []⟩ = ⟨[], [], []⟩ :=
      seed_unknown_id g iu ⟨[], [], []⟩ hall
    show (cascadeLoop iu g pol
        ((seedInitial g iu ⟨[], [], []⟩).queue.length +
          (g.packages.map (fun e => e.1)).length)
        (seedInitial g iu ⟨[], [], []⟩)).map
        (fun r => r.map (fun st => st.allUpdates)) = some (.ok [])
    rw [hid]
    rw [cascadeLoop_nil iu g pol _ ⟨[], [], []⟩ rfl]
    rfl

theorem cascade_unknown_seed_silent_witness :
    cascadeVersionUpdates [(js "Z", ⟨js "1.0.1", js "patch"⟩)] diamondGraph
        (js "patch") = some (.ok []) ∧
    alGet ([] : List (JStr × UpdateResult)) (js "Z") = none := by
  constructor
  · exact cascade_unknown_seed_silent.2 [(js "Z", ⟨js "1.0.1", js "patch"⟩)]
      diamondGraph (js "patch") (by decide)
  · exact cascade_unknown_seed_silent.1 [(js "Z", ⟨js "1.0.1", js "patch"⟩)]
      diamondGraph (js "patch") [] (js "Z") (by rfl) (by rfl)

theorem restore_get_ne (restoreFail : JStr → Bool) :
    ∀ (backups : List (JStr × PackageBackup)) (fs : FS) (path : JStr),
      path ∉ backups.map (fun e => e.2.path) →
      alGet (restorePackageJsonFiles restoreFail backups fs) path =
        alGet fs path := by
  intro backups
  induction backups with
  | nil =>
    intro fs path _
    rfl
  | cons e rest ih =>
    intro fs path hp
    obtain ⟨n, b⟩ := e
    simp only [List.map_cons, List.mem_cons, not_or] at hp
    rw [restorePackageJsonFiles]
    by_cases hf : restoreFail b.path
    · rw [if_pos hf]
      exact ih fs path hp.2
    · rw [if_neg hf]
      rw [ih _ path hp.2]
      exact alGet_alSet_ne _ hp.1

theorem restore_get (restoreFail : JStr → Bool) :
    ∀ (backups : List (JStr × PackageBackup)) (fs : FS),
      (backups.map (fun e => e.2.path)).Nodup →
      ∀ e ∈ backups, restoreFail e.2.path = false →
        alGet (restorePackageJsonFiles restoreFail backups fs) e.2.path =
          some e.2.content := by
  intro backups
  induction backups with
  | nil =>
    intro fs _ e he
    exact absurd he (List.not_mem_nil _)
  | cons hd rest ih =>
    intro fs hnd e he hf
    obtain ⟨n, b⟩ := hd
    simp only [List.map_cons, List.nodup_cons] at hnd
    rcases List.mem_cons.mp he with heq | hmem
    · subst heq
      rw [restorePackageJsonFiles, if_neg (by rw [hf]; exact Bool.noConfusion)]
      rw [restore_get_ne restoreFail rest _ _ hnd.1]
      exact alGet_alSet_self _ _ _
    · rw [restorePackageJsonFiles]
      by_cases hfb : restoreFail b.path
      · rw [if_pos hfb]
        exact ih fs hnd.2 e hmem hf
      · rw [if_neg hfb]
        exact ih _ hnd.2 e hmem hf

theorem backup_contents (g : SnapGraph) (fs : FS) :
    ∀ (ps : List JStr) (acc backups : List (JStr × PackageBackup)),
      (∀ e ∈ acc, alGet fs e.2.path = some e.2.content) →
      backupLoop g fs ps acc = .ok backups →
      ∀ e ∈ backups, alGet fs e.2.path = some e.2.content := by
  intro ps
  induction ps with
  | nil =>
    intro acc backups hacc hrun
    have : acc = backups := Except.ok.inj hrun
    subst this
    exact hacc
  | cons p rest ih =>
    intro acc backups hacc hrun
    rw [backupLoop] at hrun
    cases hg : alGet g.packages p with
    | none =>
      rw [hg] at hrun
      exact ih acc backups hacc hrun
    | some info =>
      rw [hg] at hrun
      replace hrun : (match alGet fs info.path with
        | none => Except.error info.path
        | some content =>
            backupLoop g fs rest (alSet acc p ⟨info.path, content⟩)) =
          Except.ok backups := hrun
      cases hread : alGet fs info.path with
      | none =>
        rw [hread] at hrun
        exact Except.noConfusion hrun
      | some content =>
        rw [hread] at hrun
        refine ih _ backups ?_ hrun
        intro e he
        rcases mem_alSet he with heq | hmem
        · rw [heq]
          exact hread
        · exact hacc e hmem

/-- Claim C4: Once a snapshot run reaches the manifest-mutation phase, on
every exit path — all publishes succeed, some per-package publishes fail
(their per-package try/catch keeps the loop going), or an exception is
raised during mutation (re-raised after the catch block) — every backup
records exactly the pre-run content of its manifest, and every backed-up
manifest whose restore write succeeds holds exactly its pre-run content in
the final filesystem; a failing restore of one file does not prevent the
remaining files from being restored (the conclusion holds for each
successfully-restored file regardless of `restoreFail` on the others). -/
theorem snapshot_restores_backups :
    (∀ (pkgs : List JStr) (g : SnapGraph) (fs : FS)
      (backups : List (JStr × PackageBackup)),
      backupPackageJsonFiles pkgs g fs = .ok backups →
      ∀ e ∈ backups, alGet fs e.2.path = some e.2.content) ∧
    (∀ (pkgs : List JStr) (g : SnapGraph) (render : JStr → JStr)
      (mutThrow restoreFail pubOk : JStr → Bool) (fs : FS)
      (backups : List (JStr × PackageBackup)) (fsOut : FS)
      (r : Except JStr (Nat × Nat)),
      backupPackageJsonFiles pkgs g fs = .ok backups →
      snapshotRun pkgs g render mutThrow restoreFail pubOk fs = .ok (fsOut, r) →
      (backups.map (fun e => e.2.path)).Nodup →
      ∀ e ∈ backups, restoreFail e.2.path = false →
        alGet fsOut e.2.path = alGet fs e.2.path ∧
        alGet fsOut e.2.path = some e.2.content) := by
  constructor
  · intro pkgs g fs backups hb
    exact backup_contents g fs pkgs [] backups
      (fun e he => absurd he (List.not_mem_nil _)) hb
  · intro pkgs g render mutThrow restoreFail pubOk fs backups fsOut r hb hrun hnd e he hf
    have hpre : alGet fs e.2.path = some e.2.content :=
      backup_contents g fs pkgs [] backups
        (fun e' he' => absurd he' (List.not_mem_nil _)) hb e he
    unfold snapshotRun at hrun
    rw [hb] at hrun
    replace hrun : ((match updatePackagesToSnapshot render mutThrow g pkgs fs with
      | (fs1, some er) =>
          Except.ok (restorePackageJsonFiles restoreFail backups fs1, .error er)
      | (fs1, none) =>
          Except.ok (restorePackageJsonFiles restoreFail backups fs1,
            .ok (publishLoop pubOk g pkgs (0, 0)))) :
        Except JStr (FS × Except JStr (Nat × Nat))) = .ok (fsOut, r) := hrun
    rcases hmu : updatePackagesToSnapshot render mutThrow g pkgs fs with ⟨fs1, merr⟩
    rw [hmu] at hrun
    have hres : alGet (restorePackageJsonFiles restoreFail backups fs1) e.2.path =
        some e.2.content := restore_get restoreFail backups fs1 hnd e he hf
    cases merr with
    | none =>
      replace hrun : (Except.ok (restorePackageJsonFiles restoreFail backups fs1,
            Except.ok (publishLoop pubOk g pkgs (0, 0))) :
          Except JStr (FS × Except JStr (Nat × Nat))) = .ok (fsOut, r) := hrun
      have hpair := Except.ok.inj hrun
      have hfs : restorePackageJsonFiles restoreFail backups fs1 = fsOut :=
        congrArg Prod.fst hpair
      rw [← hfs, hres, hpre]
      exact ⟨rfl, rfl⟩
    | some er =>
      replace hrun : (Except.ok (restorePackageJsonFiles restoreFail backups fs1,
            (Except.error er : Except JStr (Nat × Nat))) :
          Except JStr (FS × Except JStr (Nat × Nat))) = .ok (fsOut, r) := hrun
      have hpair := Except.ok.inj hrun
      have hfs : restorePackageJsonFiles restoreFail backups fs1 = fsOut :=
        congrArg Prod.fst hpair
      rw [← hfs, hres, hpre]
      exact ⟨rfl, rfl⟩

theorem snapshot_restores_backups_witness :
    alGet [(js "/p", js "A"), (js "/q", js "MUT")] (js "/p") =
        alGet [(js "/p", js "A"), (js "/q", js "B")] (js "/p") ∧
    alGet [(js "/p", js "A"), (js "/q", js "MUT")] (js "/p") = some (js "A") :=
  snapshot_restores_backups.2 [js "P", js "Q"]
    ⟨[(js "P", ⟨js "/p", js "1.0.0", false⟩),
      (js "Q", ⟨js "/q", js "1.0.0", false⟩)]⟩
    (fun _ => js "MUT") (fun _ => false) (fun path => decide (path = js "/q"))
    (fun _ => false)
    [(js "/p", js "A"), (js "/q", js "B")]
    [(js "P", ⟨js "/p", js "A"⟩), (js "Q", ⟨js "/q", js "B"⟩)]
    [(js "/p", js "A"), (js "/q", js "MUT")]
    (.ok (0, 2))
    (by rfl) (by rfl) (by decide)
    (js "P", ⟨js "/p", js "A"⟩) (by decide) (by rfl)
